import Mathlib

/-!
Verification of the dsgit version-control core.

Rust strings are modelled as lists of Unicode scalar values (`List Char`),
matching Rust's `char` and preserving the lexicographic order of the UTF-8
byte representation.  The filesystem object store (`.dsgit/objects`) and the
reference store are modelled as association lists from names to contents.
Rust panics (`panic!`, `unwrap`, failed `assert!`, index out of bounds) and
returned `anyhow` errors are distinguished by the `DsError` type, since the
error-handling claims turn on that distinction.  Functions whose recursion
in the source is bounded only by the shape of on-disk data take an explicit
fuel parameter; running out of fuel corresponds to the unbounded recursion
the source would perform on cyclic data.
-/

namespace Dsgit

/-- Rust `String`, modelled as the list of its `char`s. -/
abbrev Str := List Char

/-- Embed a Lean string literal into the model's string type. -/
def str (s : String) : Str := s.data

/-- Rust `str::split(sep)`: `n` separators yield `n + 1` pieces, empty
pieces included. -/
def splitCh (c : Char) : Str → List Str
  | [] => [[]]
  | a :: as =>
    match splitCh c as with
    | [] => [[]]
    | h :: t => if a = c then [] :: h :: t else (a :: h) :: t

/-- Rust `str::lines` strips at most one trailing `'\r'` from each line. -/
def stripCR (l : Str) : Str :=
  if l.getLast? = some '\r' then l.dropLast else l

/-- Rust `str::lines`: split on `'\n'`, dropping the final empty piece that a
trailing newline would produce, then strip one trailing `'\r'` per line. -/
def rustLines (s : Str) : List Str :=
  let parts := splitCh '\n' s
  let parts := if parts.getLast? = some [] then parts.dropLast else parts
  parts.map stripCR

/-- Rust `data::TypeObject`: the three object kinds; the derived `Ord`
order is declaration order (Blob < Tree < Commit). -/
inductive TypeObject where
  | blob
  | tree
  | commit
  deriving DecidableEq, Repr

/-- Rust `TypeObject::from_str`: recognizes the three kind tags, `Err` (here
`none`) otherwise. -/
def TypeObject.fromStr (s : Str) : Option TypeObject :=
  if s = str "blob" then some .blob
  else if s = str "tree" then some .tree
  else if s = str "commit" then some .commit
  else none

/-- Rust `impl Display for TypeObject`. -/
def TypeObject.display : TypeObject → Str
  | .blob => str "blob"
  | .tree => str "tree"
  | .commit => str "commit"

instance {ε α : Type _} [DecidableEq ε] [DecidableEq α] :
    DecidableEq (Except ε α) := fun x y =>
  match x, y with
  | .ok a, .ok b =>
    if h : a = b then .isTrue (by rw [h])
    else .isFalse (fun hh => h (Except.ok.inj hh))
  | .error a, .error b =>
    if h : a = b then .isTrue (by rw [h])
    else .isFalse (fun hh => h (Except.error.inj hh))
  | .ok _, .error _ => .isFalse (fun hh => Except.noConfusion hh)
  | .error _, .ok _ => .isFalse (fun hh => Except.noConfusion hh)

/-- Outcomes of fallible dsgit operations. `panicked` models Rust panics
(`panic!`, `unwrap` on `Err`/`None`, failed `assert!`, index out of
bounds); `typed` models an `anyhow` error value returned with `Err`;
`ioFail` models a propagated filesystem error. -/
inductive DsError where
  | panicked (msg : Str)
  | typed (msg : Str)
  | ioFail (msg : Str)
  deriving DecidableEq, Repr

/-- The NUL separator between the kind tag and the payload of a stored
object. -/
def NULC : Char := Char.ofNat 0

/-- The `.dsgit/objects` directory: an association list from oid to the full
stored file content (newest entry first). -/
abbrev ObjStore := List (Str × Str)

def lookupStore (s : ObjStore) (k : Str) : Option Str := List.lookup k s

/-- Writing a file opened with `write(true).create(true)` but no
`truncate`: the write starts at offset 0, and any longer previous content
keeps its tail. -/
def writeNoTrunc (old : Option Str) (v : Str) : Str :=
  match old with
  | none => v
  | some o => v ++ o.drop v.length

def putStore (s : ObjStore) (k v : Str) : ObjStore :=
  (k, writeNoTrunc (lookupStore s k) v) :: s

/-- Rust `data::hash_object`: tag the content with its kind and a NUL,
hash the tagged bytes, store them under the hex oid (the file is opened
without truncation). The hash function is a parameter of the model. -/
def hashObject (sha1hex : Str → Str) (s : ObjStore) (data : Str)
    (t : TypeObject) : Str × ObjStore :=
  let obj := t.display ++ NULC :: data
  let oid := sha1hex obj
  (oid, putStore s oid obj)

/-- Rust `data::get_object`. The source builds `anyhow!` errors for the
`objs.len() != 2` check and for the kind comparison but never returns them
(both `anyhow!` expressions are discarded statements), so neither check has
any effect; the only failures are a missing object file, an unknown kind
tag (`from_str(..).unwrap()`), and a missing second NUL-separated field
(`objs[1]` out of bounds). -/
def getObject (s : ObjStore) (oid : Str) (expected : TypeObject) :
    Except DsError Str :=
  match lookupStore s oid with
  | none => .error (.ioFail (str "Failed to open object file"))
  | some buf =>
    let objs := splitCh NULC buf
    match TypeObject.fromStr (objs.headD []) with
    | none => .error (.panicked (str "called unwrap on an Err value"))
    | some _ =>
      match objs.drop 1 with
      | [] => .error (.panicked (str "index out of bounds"))
      | c :: _ => .ok c

/-- Rust `entry::Entry` (derived `Ord`: path, then oid, then kind). -/
structure Entry where
  path : Str
  oid : Str
  objType : TypeObject
  deriving DecidableEq, Repr

/-- One serialized tree line without its newline: `"{kind} {oid} {path}"`. -/
def Entry.lineStr (e : Entry) : Str :=
  e.objType.display ++ ' ' :: (e.oid ++ ' ' :: e.path)

/-- Rust `impl Display for Entry` (`writeln!` appends a newline). -/
def Entry.display (e : Entry) : Str := e.lineStr ++ ['\n']

/-- Rust `entry::Entry::from(&str)`: split the line on every space; panic
(not a typed error) when the field count is not 3; panic on an unknown kind
tag (`from_str(..).unwrap()`). -/
def entryFrom (item : Str) : Except DsError Entry :=
  let fields := splitCh ' ' item
  if fields.length = 3 then
    match TypeObject.fromStr (fields.headD []) with
    | none => .error (.panicked (str "called unwrap on an Err value"))
    | some t =>
      .ok { path := fields.getD 2 [], oid := fields.getD 1 [], objType := t }
  else
    .error (.panicked (str "Entry must be length == 3"))

/-- A concrete stand-in for the hash parameter, used in closed evaluations. -/
def demoSha (s : Str) : Str := 'h' :: s

/-- Rust `commit::Commit`. -/
structure Commit where
  tree : Str
  parent : Option Str
  message : Str
  deriving DecidableEq, Repr

/-- Rust `commit::Commit::get_commit`: read the commit object, require the
first line to begin with `"tree"` (typed error otherwise), read an optional
`"parent"` second line, take the last line as the message.  Indexing past
the end of `lines` or of a split line panics. -/
def getCommit (S : ObjStore) (oid : Str) : Except DsError Commit :=
  match getObject S oid .commit with
  | .error e => .error e
  | .ok obj =>
    let ls := rustLines obj
    match ls[0]? with
    | none => .error (.panicked (str "index out of bounds"))
    | some l0 =>
      let f0 := splitCh ' ' l0
      if f0.headD [] = str "tree" then
        match f0[1]? with
        | none => .error (.panicked (str "index out of bounds"))
        | some t =>
          match ls[1]? with
          | none => .error (.panicked (str "index out of bounds"))
          | some l1 =>
            let f1 := splitCh ' ' l1
            if f1.headD [] = str "parent" then
              match f1[1]? with
              | none => .error (.panicked (str "index out of bounds"))
              | some p =>
                .ok { tree := t, parent := some p,
                      message := ls.getLast?.getD [] }
            else
              .ok { tree := t, parent := none,
                    message := ls.getLast?.getD [] }
      else
        .error (.typed (str "Commit object expected including tree object"))

/-- Rust `entry::Tree::get_tree`'s line loop, one step per serialized line:
parse the entry (panics propagate), keep blob entries, expand tree entries
through the store by applying the given recursive expansion to the fetched
subtree content, and return a typed error for a `commit`-kind entry
(`_ => Err(anyhow!("Unknown tree entry."))`). -/
def getTreeGo (S : ObjStore)
    (recur : Str → Except DsError (List Entry)) :
    List Str → Except DsError (List Entry)
  | [] => .ok []
  | l :: ls =>
    match entryFrom l with
    | .error e => .error e
    | .ok ent =>
      match ent.objType with
      | .blob =>
        match getTreeGo S recur ls with
        | .error e => .error e
        | .ok rest => .ok (ent :: rest)
      | .tree =>
        match getObject S ent.oid .tree with
        | .error e => .error e
        | .ok sub =>
          match recur sub with
          | .error e => .error e
          | .ok subEs =>
            match getTreeGo S recur ls with
            | .error e => .error e
            | .ok rest => .ok (subEs ++ rest)
      | .commit => .error (.typed (str "Unknown tree entry."))

/-- Rust `entry::Tree::get_tree` applied to a serialized tree object.  The
fuel bounds the nesting depth; exhausting it models the unbounded recursion
a cyclic object graph would cause. -/
def getTree (S : ObjStore) : Nat → Str → Except DsError (List Entry)
  | 0, _ => .error (.panicked (str "stack overflow"))
  | fuel + 1, tree => getTreeGo S (getTree S fuel) (rustLines tree)

/-- Index of a kind in its declaration order; the Rust derived `Ord` on
`TypeObject` is Blob < Tree < Commit. -/
def kindNat : TypeObject → ℕ
  | .blob => 0
  | .tree => 1
  | .commit => 2

/-- The Rust derived `Ord` on `Entry` compares lexicographically by field
declaration order: path, then oid, then kind.  Rust compares `String`s by
UTF-8 bytes, which orders exactly like the scalar-value lists used here. -/
def entryLeB (a b : Entry) : Bool :=
  decide (toLex (a.path, toLex (a.oid, kindNat a.objType))
    ≤ toLex (b.path, toLex (b.oid, kindNat b.objType)))

/-- The derived entry order as a relation. -/
def entryLeP (a b : Entry) : Prop := entryLeB a b = true

instance : DecidableRel entryLeP := fun a b =>
  inferInstanceAs (Decidable (entryLeB a b = true))

instance : IsTotal Entry entryLeP :=
  ⟨fun a b => by
    have h : (entryLeB a b || entryLeB b a) = true := by
      simp only [entryLeB, Bool.or_eq_true, decide_eq_true_eq]
      exact le_total _ _
    rw [Bool.or_eq_true] at h
    exact h⟩

instance : IsTrans Entry entryLeP :=
  ⟨fun a b c h1 h2 => by
    simp only [entryLeP, entryLeB, decide_eq_true_eq] at h1 h2 ⊢
    exact le_trans h1 h2⟩

instance : IsAntisymm Entry entryLeP :=
  ⟨fun a b h1 h2 => by
    simp only [entryLeP, entryLeB, decide_eq_true_eq] at h1 h2
    have hk := le_antisymm h1 h2
    rw [toLex_inj, Prod.mk.injEq, toLex_inj, Prod.mk.injEq] at hk
    obtain ⟨hp, ho, hn⟩ := hk
    have hkind : a.objType = b.objType := by
      revert hn
      cases a.objType <;> cases b.objType <;> simp [kindNat]
    cases a
    cases b
    simp_all⟩

/-- The sort `write_tree` performs on its entry list.  Rust's `sort` is a
stable mergesort, but the derived entry order is total, transitive and
antisymmetric, so every sorting algorithm returns the one sorted
permutation; the model uses insertion sort, which the kernel can compute,
and `sortEntries_eq_mergeSort` below records the agreement. -/
def sortEntries (l : List Entry) : List Entry := List.insertionSort entryLeP l

/-- The fixed substrings `is_ignored` always skips. -/
def builtinIgnores : List Str :=
  [str ".dsgit", str ".dsgitignore", str ".git", str ".gitignore",
    str ".github"]

/-- Bool-valued list-prefix test. -/
def isPrefixB : Str → Str → Bool
  | [], _ => true
  | _ :: _, [] => false
  | a :: as, b :: bs => a = b && isPrefixB as bs

/-- Rust `str::contains(&str)`: contiguous-substring containment. -/
def containsB (pat : Str) : Str → Bool
  | [] => isPrefixB pat []
  | a :: t => isPrefixB pat (a :: t) || containsB pat t

/-- Rust `Tree::is_ignored`: substring containment against the built-in
internal names and the external ignore patterns. -/
def isIgnored (path : Str) (ignoreOptions : List Str) : Bool :=
  builtinIgnores.any (fun p => containsB p path)
    || ignoreOptions.any (fun p => containsB p path)

mutual
/-- A directory tree on disk: regular files with text content and
subdirectories, listed in filesystem enumeration order.  Symlinks and other
kinds are outside the source's handling. -/
inductive FsEntry where
  | file (content : Str)
  | dir (d : FsDir)
inductive FsDir where
  | nil
  | cons (name : Str) (entry : FsEntry) (rest : FsDir)
end

deriving instance DecidableEq for FsEntry, FsDir

/-- The full stored form of an object: kind tag, NUL, payload. -/
def taggedObj (t : TypeObject) (content : Str) : Str :=
  t.display ++ NULC :: content

/-- The kind `write_tree` records for a directory child: files are hashed
as blobs, subdirectories as trees. -/
def kindOfE : FsEntry → TypeObject
  | .file _ => .blob
  | .dir _ => .tree

mutual
/-- One directory child as `write_tree` processes it, returning its oid and
the updated store: a regular file is read and hashed as a blob; for a
subdirectory the recursive `write_tree` call is inlined here (collect the
child's entries, sort, serialize one display line per entry, hash as a
tree) so that the mutual recursion is structural. -/
def writeEntryOS (sha1hex : Str → Str) (ign : List Str) (p : Str) :
    FsEntry → ObjStore → (Str × ObjStore)
  | .file c, S => hashObject sha1hex S c .blob
  | .dir d, S =>
    let r := writeDirEntries sha1hex ign p d S
    hashObject sha1hex r.2
      (((sortEntries r.1).map Entry.display).flatten) .tree
  termination_by structural e => e

/-- Rust `entry::Tree::write_tree`'s directory loop: walk the children in
enumeration order, skip ignored paths, and record one entry per child,
threading the object store. -/
def writeDirEntries (sha1hex : Str → Str) (ign : List Str) (target : Str) :
    FsDir → ObjStore → (List Entry × ObjStore)
  | .nil, S => ([], S)
  | .cons n e rest, S =>
    let p := target ++ '/' :: n
    if isIgnored p ign then writeDirEntries sha1hex ign target rest S
    else
      let r1 := writeEntryOS sha1hex ign p e S
      let r2 := writeDirEntries sha1hex ign target rest r1.2
      (⟨p, r1.1, kindOfE e⟩ :: r2.1, r2.2)
  termination_by structural d => d
end

/-- Rust `entry::Tree::write_tree`: collect the entries, sort them with the
derived `Ord`, serialize one display line per entry, and hash the buffer as
a tree object. -/
def writeTreeD (sha1hex : Str → Str) (ign : List Str) (target : Str)
    (d : FsDir) (S : ObjStore) : Str × ObjStore :=
  let r := writeDirEntries sha1hex ign target d S
  hashObject sha1hex r.2
    (((sortEntries r.1).map Entry.display).flatten) .tree

mutual
/-- The oid `write_tree` assigns to one directory child (store-independent:
`hash_object` derives the oid from kind and content alone). -/
def entryOidP (sha1hex : Str → Str) (ign : List Str) (p : Str) :
    FsEntry → Str
  | .file c => sha1hex (taggedObj .blob c)
  | .dir d =>
    sha1hex (taggedObj .tree
      (((sortEntries (dirEntriesP sha1hex ign p d)).map
        Entry.display).flatten))
  termination_by structural e => e

/-- The entry list `write_tree` collects for one directory, before
sorting. -/
def dirEntriesP (sha1hex : Str → Str) (ign : List Str) (target : Str) :
    FsDir → List Entry
  | .nil => []
  | .cons n e rest =>
    let p := target ++ '/' :: n
    if isIgnored p ign then dirEntriesP sha1hex ign target rest
    else
      ⟨p, entryOidP sha1hex ign p e, kindOfE e⟩
        :: dirEntriesP sha1hex ign target rest
  termination_by structural d => d
end

/-- The serialized content of the tree object for one directory. -/
def treeContentP (sha1hex : Str → Str) (ign : List Str) (target : Str)
    (d : FsDir) : Str :=
  ((sortEntries (dirEntriesP sha1hex ign target d)).map
    Entry.display).flatten

/-- The oid of the tree object for one directory. -/
def treeOidP (sha1hex : Str → Str) (ign : List Str) (target : Str)
    (d : FsDir) : Str :=
  sha1hex (taggedObj .tree (treeContentP sha1hex ign target d))

mutual
/-- All `(oid, stored object)` pairs `write_tree` persists for one child,
in write order. -/
def objsE (sha1hex : Str → Str) (ign : List Str) (p : Str) :
    FsEntry → List (Str × Str)
  | .file c => [(sha1hex (taggedObj .blob c), taggedObj .blob c)]
  | .dir d =>
    objsD sha1hex ign p d
      ++ [(treeOidP sha1hex ign p d,
            taggedObj .tree (treeContentP sha1hex ign p d))]
  termination_by structural e => e

/-- All `(oid, stored object)` pairs the directory loop persists. -/
def objsD (sha1hex : Str → Str) (ign : List Str) (target : Str) :
    FsDir → List (Str × Str)
  | .nil => []
  | .cons n e rest =>
    let p := target ++ '/' :: n
    if isIgnored p ign then objsD sha1hex ign target rest
    else objsE sha1hex ign p e ++ objsD sha1hex ign target rest
  termination_by structural d => d
end

/-- Everything `write_tree target d` persists, root tree object included. -/
def objsT (sha1hex : Str → Str) (ign : List Str) (target : Str)
    (d : FsDir) : List (Str × Str) :=
  objsD sha1hex ign target d
    ++ [(treeOidP sha1hex ign target d,
          taggedObj .tree (treeContentP sha1hex ign target d))]

/-- Threading a list of writes through the store. -/
def storeFold (S : ObjStore) (objs : List (Str × Str)) : ObjStore :=
  objs.foldl (fun s x => putStore s x.1 x.2) S

/-- Collision-freedom across a list of writes: equal oids carry equal
stored objects. -/
def Consistent (objs : List (Str × Str)) : Prop :=
  ∀ x ∈ objs, ∀ y ∈ objs, x.1 = y.1 → x.2 = y.2

/-- Every association in the store comes from the given write list. -/
def CoversStore (objs : List (Str × Str)) (S : ObjStore) : Prop :=
  ∀ kv ∈ S, kv ∈ objs

def toListD : FsDir → List (Str × FsEntry)
  | .nil => []
  | .cons n e r => (n, e) :: toListD r

def ofListD : List (Str × FsEntry) → FsDir
  | [] => .nil
  | (n, e) :: r => .cons n e (ofListD r)

/-- Name order used only to canonicalize directory listings when comparing
"identical contents up to enumeration order". -/
def nameLeP (a b : Str × FsEntry) : Prop := a.1 ≤ b.1

instance : DecidableRel nameLeP := fun a b =>
  inferInstanceAs (Decidable (a.1 ≤ b.1))

/-- Sort a directory listing by child name. -/
def sortD (d : FsDir) : FsDir :=
  ofListD (List.insertionSort nameLeP (toListD d))

mutual
/-- Canonical form of an entry: canonicalize subdirectories recursively. -/
def canonE : FsEntry → FsEntry
  | .file c => .file c
  | .dir d => .dir (sortD (canonEachD d))
  termination_by structural e => e

/-- Canonicalize every child of a directory, preserving order. -/
def canonEachD : FsDir → FsDir
  | .nil => .nil
  | .cons n e r => .cons n (canonE e) (canonEachD r)
  termination_by structural d => d
end

/-- Canonical form of a directory: children canonicalized recursively, then
sorted by name.  Two directory trees have identical contents up to
filesystem enumeration order exactly when their canonical forms agree. -/
def canonD (d : FsDir) : FsDir :=
  sortD (canonEachD d)

/-- The per-child shape of `dirEntriesP`, as a `filterMap` over the listing. -/
def entF (sha1hex : Str → Str) (ign : List Str) (target : Str)
    (pr : Str × FsEntry) : Option Entry :=
  let p := target ++ '/' :: pr.1
  if isIgnored p ign then none
  else some ⟨p, entryOidP sha1hex ign p pr.2, kindOfE pr.2⟩

/-- Rust `diff::diff_trees`'s `convert_dict`: build a path-to-oid map from a
materialized tree; a later entry for the same path overwrites an earlier
one (`HashMap::insert`).  `List.lookup` finds the most recent insertion. -/
def convertDict (t : List Entry) : List (Str × Str) :=
  t.foldl (fun d e => (e.path, e.oid) :: d) []

/-- Rust `diff::display_diff_file`: fetch both sides (an absent side stands
in as the empty string) and render a line diff to the console.  Only the
store reads and their failures are modelled; the rendering itself is
terminal output. -/
def displayDiffFile (S : ObjStore) (oldOid newOid : Option Str) :
    Except DsError Unit :=
  match (match oldOid with
          | some oid => getObject S oid .blob
          | none => .ok []) with
  | .error e => .error e
  | .ok _ =>
    match (match newOid with
            | some oid => getObject S oid .blob
            | none => .ok []) with
    | .error e => .error e
    | .ok _ => .ok ()

/-- The classification loop of `diff_trees` over the de-duplicated path
union.  The set-iteration order of Rust's `HashSet` is unspecified; the
model fixes one enumeration, which leaves the membership semantics
unchanged. -/
def diffGo (S : ObjStore) (fromD toD : List (Str × Str)) :
    List Str → Except DsError (List Str)
  | [] => .ok []
  | p :: ps =>
    match List.lookup p fromD with
    | some fo =>
      match List.lookup p toD with
      | some to_o =>
        if fo ≠ to_o then
          match displayDiffFile S (some fo) (some to_o) with
          | .error e => .error e
          | .ok _ =>
            match diffGo S fromD toD ps with
            | .error e => .error e
            | .ok r => .ok (p :: r)
        else diffGo S fromD toD ps
      | none =>
        match displayDiffFile S (some fo) none with
        | .error e => .error e
        | .ok _ =>
          match diffGo S fromD toD ps with
          | .error e => .error e
          | .ok r => .ok (p :: r)
    | none =>
      match List.lookup p toD with
      | some to_o =>
        match displayDiffFile S none (some to_o) with
        | .error e => .error e
        | .ok _ =>
          match diffGo S fromD toD ps with
          | .error e => .error e
          | .ok r => .ok (p :: r)
      | none => diffGo S fromD toD ps

/-- Rust `diff::diff_trees`: build both dicts, take the union of the path
sets, and classify every path, returning the changed paths. -/
def diffTrees (S : ObjStore) (fromT toT : List Entry) :
    Except DsError (List Str) :=
  diffGo S (convertDict fromT) (convertDict toT)
    ((fromT.map Entry.path ++ toT.map Entry.path).dedup)

/-- The reference files under `.dsgit/`: an association list from ref name
(its storage path) to file content, newest write first. -/
abbrev RefStore := List (Str × Str)

def lookupRefs (r : RefStore) (k : Str) : Option Str := List.lookup k r

/-- Rust `reference::RefValue`; the `ref_oid` field, despite its name,
carries the ref's name (storage path). -/
structure RefValue where
  refOid : Option Str
  symbolic : Bool
  value : Str
  deriving DecidableEq, Repr

/-- Rust `RefValue::get_ref_internal`: read the ref file; a content that is
nonempty and starts with `"ref:"` is symbolic, and with `deref` the chase
continues until a non-symbolic ref or a missing file.  The source has no
cycle guard and recurses unboundedly on a reference cycle; the fuel models
that, with exhaustion standing for the stack overflow. -/
def getRefInternal (R : RefStore) : Nat → Str → Bool →
    Except DsError (Option RefValue)
  | 0, _, _ => .error (.panicked (str "stack overflow"))
  | fuel + 1, refs, deref =>
    match lookupRefs R refs with
    | none => .ok none
    | some v =>
      if (!v.isEmpty) && isPrefixB (str "ref:") v then
        match (splitCh ':' v)[1]? with
        | none => .error (.panicked (str "index out of bounds"))
        | some v' =>
          if deref then getRefInternal R fuel v' true
          else .ok (some ⟨some refs, true, v'⟩)
      else .ok (some ⟨some refs, false, v⟩)

/-- The final write of `RefValue::update_ref`: assert a nonempty value,
prefix symbolic values with `"ref:"`, truncate-and-overwrite the file. -/
def updateRefWrite (R : RefStore) (target : Str) (rv : RefValue) :
    Except DsError (Str × RefStore) :=
  if rv.value.isEmpty then .error (.panicked (str "assertion failed"))
  else
    let v := if rv.symbolic then str "ref:" ++ rv.value else rv.value
    .ok (v, (target, v) :: R)

/-- Rust `RefValue::update_ref`: with `deref`, resolve the name to the
ultimate concrete ref and write there (at the first commit the resolution
returns `None` and the original name is used); without `deref` the named
ref file itself is written. -/
def updateRef (R : RefStore) (fuel : Nat) (refs : Str) (rv : RefValue)
    (deref : Bool) : Except DsError (Str × RefStore) :=
  match getRefInternal R fuel refs deref with
  | .error e => .error e
  | .ok (some rr) =>
    match rr.refOid with
    | none => .error (.panicked (str "called unwrap on None"))
    | some target => updateRefWrite R target rv
  | .ok none => updateRefWrite R refs rv

/-- Modelled from the spec: `data::get_ref`, which `base.rs get_oid` calls,
is not present under src (only this historical caller is).  Per the spec's
`resolve(name, deref)`, it reads the ref stored at the given path,
following symbolic references, and returns the resolved oid, or `None`
when the ref file does not exist. -/
def getRefSpec (R : RefStore) (fuel : Nat) (p : Str) :
    Except DsError (Option Str) :=
  match getRefInternal R fuel p true with
  | .error e => .error e
  | .ok r => .ok (r.map RefValue.value)

/-- Rust `char::is_ascii_hexdigit`. -/
def isAsciiHexDigitCh (c : Char) : Bool :=
  c.isDigit || ('a' ≤ c && c ≤ 'f') || ('A' ≤ c && c ≤ 'F')

/-- Rust `str::len`: the length in UTF-8 bytes, not in characters. -/
def strByteLen (s : Str) : Nat := (s.map Char.utf8Size).sum

/-- The candidate loop of `base.rs get_oid`. -/
def getOidGo (R : RefStore) (fuel : Nat) :
    List Str → Except DsError (Option Str)
  | [] => .ok none
  | p :: ps =>
    match getRefSpec R fuel p with
    | .error e => .error e
    | .ok (some oid) => .ok (some oid)
    | .ok none => getOidGo R fuel ps

/-- Rust `base.rs get_oid`: try the literal name, `refs/{name}`,
`refs/tags/{name}`, `refs/heads/{name}` in order; the first existing ref
wins; otherwise accept the name itself exactly when it is 40 bytes of
ASCII hex digits. -/
def getOid (R : RefStore) (fuel : Nat) (name : Str) : Except DsError Str :=
  match getOidGo R fuel
      [name, str "refs/" ++ name, str "refs/tags/" ++ name,
        str "refs/heads/" ++ name] with
  | .error e => .error e
  | .ok (some oid) => .ok oid
  | .ok none =>
    let is_hex := name.all isAsciiHexDigitCh
    if (strByteLen name == 40) && is_hex then .ok name
    else .error (.typed (str "Unknown name and not hash value"))

/-- Rust `entry::Tree::read_tree`, after the initial clear of the working
directory: read the tree object, flatten it with `get_tree`, and write each
blob's content to its path.  The returned list is the sequence of
`(path, content)` writes, which fully determines the resulting working
directory because the directory was cleared first. -/
def readTreeFiles (S : ObjStore) (fuel : Nat) (oid : Str) :
    Except DsError (List (Str × Str)) :=
  match getObject S oid .tree with
  | .error e => .error e
  | .ok tc =>
    match getTree S fuel tc with
    | .error e => .error e
    | .ok es =>
      es.mapM (fun ent =>
        match getObject S ent.oid .blob with
        | .error er => .error er
        | .ok c => .ok (ent.path, c))

/-- The serialized commit body `commit` builds: `"tree {oid}\n"`, an
optional `"parent {oid}\n"`, a blank separator line, and the message with a
trailing newline. -/
def commitContent (t : Str) (popt : Option Str) (msg : Str) : Str :=
  str "tree " ++ t ++ '\n' ::
    ((match popt with
      | some p => str "parent " ++ p ++ ['\n']
      | none => []) ++ '\n' :: (msg ++ ['\n']))

/-- Rust `commit::Commit::commit`: snapshot the working tree, resolve
`HEAD` (dereferencing) for the optional parent, serialize and store the
commit object, and update `HEAD` (through the branch when symbolic) to the
new commit oid. -/
def commitOp (sha1hex : Str → Str) (ign : List Str) (fuel : Nat)
    (T : FsDir) (O : ObjStore) (R : RefStore) (msg : Str) :
    Except DsError (Str × ObjStore × RefStore) :=
  let wt := writeTreeD sha1hex ign (str ".") T O
  match getRefInternal R fuel (str "HEAD") true with
  | .error e => .error e
  | .ok headRef =>
    let content := commitContent wt.1 (headRef.map RefValue.value) msg
    let hc := hashObject sha1hex wt.2 content .commit
    match updateRef R fuel (str "HEAD") ⟨some hc.1, false, hc.1⟩ true with
    | .error e => .error e
    | .ok r => .ok (hc.1, hc.2, r.2)

/-- Rust `reference::is_branch`, with the `unwrap` made explicit: a branch
exists when `refs/heads/{name}` dereferences to an existing ref. -/
def isBranchE (R : RefStore) (fuel : Nat) (name : Str) :
    Except DsError Bool :=
  match getRefInternal R fuel (str "refs/heads/" ++ name) true with
  | .error e => .error e
  | .ok r => .ok r.isSome

/-- Rust `reference::switch`: resolve the name, load the commit, restore
its tree, then point `HEAD` symbolically at the branch when the name is a
branch, or directly (detached) at the oid otherwise; the `HEAD` write does
not dereference. -/
def switchOp (O : ObjStore) (R : RefStore) (fuel : Nat) (name : Str) :
    Except DsError (List (Str × Str) × RefStore) :=
  match getOid R fuel name with
  | .error e => .error e
  | .ok oid =>
    match getCommit O oid with
    | .error e => .error e
    | .ok cm =>
      match readTreeFiles O fuel cm.tree with
      | .error e => .error e
      | .ok files =>
        match isBranchE R fuel name with
        | .error e => .error e
        | .ok hb =>
          let headRef := if hb then
              RefValue.mk (some oid) true (str "refs/heads/" ++ name)
            else RefValue.mk (some oid) false oid
          match updateRef R fuel (str "HEAD") headRef false with
          | .error e => .error e
          | .ok r => .ok (files, r.2)

/-- Well-formedness of an oid string as hex-encoded SHA-1 produces it:
nonempty, and free of the separator characters the serialization formats
rely on. -/
def OidOk (o : Str) : Prop :=
  o ≠ [] ∧ ' ' ∉ o ∧ '\n' ∉ o ∧ '\r' ∉ o ∧ NULC ∉ o ∧ ':' ∉ o

instance (o : Str) : Decidable (OidOk o) := by
  unfold OidOk
  infer_instance

/-- A demonstration hash whose outputs are valid oids: drop every separator
character and prepend a marker. -/
def demoShaOid (s : Str) : Str :=
  'h' :: s.filter (fun c =>
    !(c == ' ' || c == '\n' || c == '\r' || c == NULC || c == ':'))

/-- Characters a path must avoid for the serialized tree lines to survive
the line/space/NUL splitting of the readers. -/
def pathChOk (p : Str) : Prop :=
  ' ' ∉ p ∧ '\n' ∉ p ∧ '\r' ∉ p ∧ NULC ∉ p

instance (p : Str) : Decidable (pathChOk p) := by
  unfold pathChOk
  infer_instance

mutual
/-- Wellformedness `read_tree` needs of one child: file contents free of
NUL (the stored blob is split on NUL when read back), and subdirectories
recursively wellformed. -/
def entWfB (ign : List Str) (p : Str) : FsEntry → Bool
  | .file c => decide (NULC ∉ c)
  | .dir d => dirWfB ign p d
  termination_by structural e => e

/-- Wellformedness of a directory under a target path: every child name is
free of the separator characters the serialized tree lines rely on, no
child path is ignored, and children are recursively wellformed. -/
def dirWfB (ign : List Str) (target : Str) : FsDir → Bool
  | .nil => true
  | .cons n e rest =>
    decide (pathChOk n) && !(isIgnored (target ++ '/' :: n) ign)
      && entWfB ign (target ++ '/' :: n) e && dirWfB ign target rest
  termination_by structural d => d
end

mutual
/-- Nesting depth of a child: `get_tree` recurses once per directory
level. -/
def depthE : FsEntry → Nat
  | .file _ => 0
  | .dir d => depthD d + 1
  termination_by structural e => e

def depthD : FsDir → Nat
  | .nil => 0
  | .cons _ e rest => max (depthE e) (depthD rest)
  termination_by structural d => d
end

mutual
/-- The blob entries `get_tree` ultimately flattens a child to. -/
def blobsE (sha1hex : Str → Str) (ign : List Str) (p : Str) :
    FsEntry → List Entry
  | .file c => [⟨p, sha1hex (taggedObj .blob c), .blob⟩]
  | .dir d => blobsD sha1hex ign p d
  termination_by structural e => e

/-- The blob entries `get_tree` ultimately flattens a directory to. -/
def blobsD (sha1hex : Str → Str) (ign : List Str) (target : Str) :
    FsDir → List Entry
  | .nil => []
  | .cons n e rest =>
    let p := target ++ '/' :: n
    if isIgnored p ign then blobsD sha1hex ign target rest
    else blobsE sha1hex ign p e ++ blobsD sha1hex ign target rest
  termination_by structural d => d
end

mutual
/-- The `(path, content)` pairs of the non-ignored regular files under one
child, with paths rooted the way `write_tree` roots them. -/
def filesE (ign : List Str) (p : Str) : FsEntry → List (Str × Str)
  | .file c => [(p, c)]
  | .dir d => filesDir ign p d
  termination_by structural e => e

/-- The `(path, content)` pairs of the non-ignored regular files of a
directory tree. -/
def filesDir (ign : List Str) (target : Str) : FsDir → List (Str × Str)
  | .nil => []
  | .cons n e rest =>
    let p := target ++ '/' :: n
    if isIgnored p ign then filesDir ign target rest
    else filesE ign p e ++ filesDir ign target rest
  termination_by structural d => d
end

/-- The flattening `get_tree` performs on one parsed line: a blob entry
stands for itself, a tree entry is replaced by the expansion of the subtree
object fetched from the store. -/
def expandEnt (S : ObjStore) (f : Nat) (e : Entry) : List Entry :=
  match e.objType with
  | .blob => [e]
  | _ =>
    match getObject S e.oid .tree with
    | .error _ => []
    | .ok sub => ((getTree S f sub).toOption).getD []

/-- The per-entry read `read_tree` performs to materialize one file. -/
def readBlobF (S : ObjStore) (ent : Entry) : Except DsError (Str × Str) :=
  match getObject S ent.oid .blob with
  | .error er => .error er
  | .ok c => .ok (ent.path, c)

mutual
/-- Structural size used as the recursion measure of the tree lemmas. -/
def sizeE : FsEntry → Nat
  | .file _ => 1
  | .dir d => 1 + sizeD d
  termination_by structural e => e

def sizeD : FsDir → Nat
  | .nil => 1
  | .cons _ e r => 1 + sizeE e + sizeD r
  termination_by structural d => d
end

instance (objs : List (Str × Str)) : Decidable (Consistent objs) := by
  unfold Consistent
  infer_instance

theorem splitCh_ne_nil (c : Char) (l : Str) : splitCh c l ≠ [] := by
  cases l with
  | nil => simp [splitCh]
  | cons a as =>
    simp only [splitCh]
    cases splitCh c as with
    | nil => simp
    | cons h t =>
      by_cases hac : a = c <;> simp [hac]

theorem splitCh_not_mem (c : Char) (l : Str) (h : c ∉ l) :
    splitCh c l = [l] := by
  induction l with
  | nil => rfl
  | cons a as ih =>
    simp only [List.mem_cons, not_or] at h
    simp only [splitCh, ih h.2, if_neg (Ne.symm h.1)]

theorem splitCh_sep (c : Char) (a rest : Str) (ha : c ∉ a) :
    splitCh c (a ++ c :: rest) = a :: splitCh c rest := by
  induction a with
  | nil =>
    simp only [List.nil_append, splitCh]
    cases hs : splitCh c rest with
    | nil => exact absurd hs (splitCh_ne_nil c rest)
    | cons h t => simp
  | cons x xs ih =>
    simp only [List.mem_cons, not_or] at ha
    simp only [List.cons_append, splitCh, List.append_eq, ih ha.2,
      if_neg (Ne.symm ha.1)]

theorem splitCh_head (c : Char) (l : Str) :
    (splitCh c l).headD [] = l.takeWhile (fun x => !(x = c : Bool)) := by
  induction l with
  | nil => rfl
  | cons a as ih =>
    simp only [splitCh]
    cases hs : splitCh c as with
    | nil => exact absurd hs (splitCh_ne_nil c as)
    | cons h t =>
      by_cases hac : a = c
      · simp [hac, List.takeWhile_cons]
      · simp only [if_neg hac, List.headD_cons, List.takeWhile_cons]
        simp only [hs, List.headD_cons] at ih
        simp [hac, ih]

theorem length_splitCh (c : Char) (l : Str) :
    (splitCh c l).length = l.count c + 1 := by
  induction l with
  | nil => simp [splitCh, List.count_nil]
  | cons a as ih =>
    simp only [splitCh]
    cases hs : splitCh c as with
    | nil => exact absurd hs (splitCh_ne_nil c as)
    | cons h t =>
      rw [hs] at ih
      simp only [List.length_cons] at ih
      by_cases hac : a = c
      · simp only [if_pos hac, List.length_cons, ih, List.count_cons]
        simp [hac]
      · simp only [if_neg hac, List.length_cons, ih, List.count_cons]
        simp [hac]

theorem takeWhile_ne_of_not_mem (c : Char) (l : Str) (h : c ∉ l) :
    l.takeWhile (fun x => !(x = c : Bool)) = l := by
  induction l with
  | nil => rfl
  | cons a as ih =>
    simp only [List.mem_cons, not_or] at h
    simp [List.takeWhile_cons, Ne.symm h.1, ih h.2]

theorem stripCR_of_not_mem (l : Str) (h : '\r' ∉ l) : stripCR l = l := by
  unfold stripCR
  cases hl : l.getLast? with
  | none => simp
  | some x =>
    by_cases hx : x = '\r'
    · subst hx
      rw [List.getLast?_eq_some_iff] at hl
      obtain ⟨ys, rfl⟩ := hl
      simp at h
    · simp [hx]

theorem rustLines_nil : rustLines [] = [] := by rfl

theorem rustLines_cons (a rest : Str) (ha : '\n' ∉ a) :
    rustLines (a ++ '\n' :: rest) = stripCR a :: rustLines rest := by
  unfold rustLines
  rw [splitCh_sep '\n' a rest ha]
  cases hs : splitCh '\n' rest with
  | nil => exact absurd hs (splitCh_ne_nil '\n' rest)
  | cons h t =>
    simp only [List.getLast?_cons_cons]
    by_cases hlast : (h :: t).getLast? = some []
    · rw [if_pos hlast, if_pos hlast]
      have : (a :: h :: t).dropLast = a :: (h :: t).dropLast := by
        cases t <;> rfl
      rw [this, List.map_cons]
    · rw [if_neg hlast, if_neg hlast, List.map_cons]

theorem NULC_not_mem_display (t : TypeObject) : NULC ∉ t.display := by
  cases t <;> decide

theorem space_not_mem_display (t : TypeObject) : ' ' ∉ t.display := by
  cases t <;> decide

theorem newline_not_mem_display (t : TypeObject) : '\n' ∉ t.display := by
  cases t <;> decide

theorem fromStr_display (t : TypeObject) :
    TypeObject.fromStr t.display = some t := by
  cases t <;> rfl

theorem lookup_putStore_self (s : ObjStore) (k v : Str) :
    lookupStore (putStore s k v) k = some (writeNoTrunc (lookupStore s k) v) := by
  simp [lookupStore, putStore, List.lookup]

theorem lookup_putStore_other (s : ObjStore) (k k' v : Str) (h : k' ≠ k) :
    lookupStore (putStore s k v) k' = lookupStore s k' := by
  simp only [lookupStore, putStore, List.lookup]
  have hb : (k' == k) = false := by simp [h]
  simp [hb]

theorem writeNoTrunc_same (old : Option Str) (v : Str)
    (h : ∀ o, old = some o → o = v) : writeNoTrunc old v = v := by
  cases old with
  | none => rfl
  | some o => simp [writeNoTrunc, h o rfl]

/-- Reading a well-formed stored object returns its payload truncated at the
payload's first NUL (an artifact of `split('\x00')` + the ineffective length
check). -/
theorem getObject_of_lookup (S : ObjStore) (oid : Str) (t e : TypeObject)
    (content : Str)
    (h : lookupStore S oid = some (t.display ++ NULC :: content)) :
    getObject S oid e = .ok (content.takeWhile (fun x => !(x = NULC : Bool))) := by
  unfold getObject
  rw [h]
  dsimp only
  rw [splitCh_sep NULC t.display content (NULC_not_mem_display t)]
  simp only [List.headD_cons, fromStr_display, List.drop_succ_cons,
    List.drop_zero]
  cases hs : splitCh NULC content with
  | nil => exact absurd hs (splitCh_ne_nil NULC content)
  | cons h1 t1 =>
    have := splitCh_head NULC content
    rw [hs] at this
    simp only [List.headD_cons] at this
    simp [this]

theorem getObject_of_lookup_clean (S : ObjStore) (oid : Str)
    (t e : TypeObject) (content : Str)
    (h : lookupStore S oid = some (t.display ++ NULC :: content))
    (hc : NULC ∉ content) :
    getObject S oid e = .ok content := by
  rw [getObject_of_lookup S oid t e content h,
    takeWhile_ne_of_not_mem NULC content hc]

theorem hashObject_lookup (sha1hex : Str → Str) (S : ObjStore) (c : Str)
    (k : TypeObject)
    (hcoll : ∀ v, lookupStore S (sha1hex (k.display ++ NULC :: c)) = some v →
      v = k.display ++ NULC :: c) :
    lookupStore (hashObject sha1hex S c k).2 (hashObject sha1hex S c k).1
      = some (k.display ++ NULC :: c) := by
  unfold hashObject
  simp only
  rw [lookup_putStore_self]
  rw [writeNoTrunc_same _ _ hcoll]

/-- C2 (amended): for contents free of NUL, and provided the store holds no
colliding object under the computed oid, `get_object (hash_object c k) k`
returns exactly `c`; and the oid returned by `hash_object` depends only on
the kind and content, not on the store. -/
theorem hash_object_get_object_roundtrip_det
    (sha1hex : Str → Str) (S : ObjStore) (c : Str) (k : TypeObject)
    (hc : NULC ∉ c)
    (hcoll : ∀ v, lookupStore S (sha1hex (k.display ++ NULC :: c)) = some v →
      v = k.display ++ NULC :: c) :
    (getObject (hashObject sha1hex S c k).2 (hashObject sha1hex S c k).1 k
      = .ok c)
    ∧ (∀ S₂ : ObjStore,
        (hashObject sha1hex S₂ c k).1 = (hashObject sha1hex S c k).1) := by
  constructor
  · exact getObject_of_lookup_clean _ _ k k c
      (hashObject_lookup sha1hex S c k hcoll) hc
  · intro S₂
    rfl

/-- C2 counterexample: for a content containing a NUL byte the round trip
fails — `get_object` splits the stored file on every NUL and returns only
the first piece of the payload. -/
theorem hash_object_roundtrip_nul_counterexample :
    (getObject (hashObject demoSha [] ('a' :: NULC :: ['b']) .blob).2
        (hashObject demoSha [] ('a' :: NULC :: ['b']) .blob).1 .blob
      = .ok ['a'])
    ∧ ('a' :: NULC :: ['b'] : Str) ≠ ['a'] := by
  constructor
  · rfl
  · decide

theorem hash_object_get_object_roundtrip_det_witness :
    ((NULC ∉ str "hi")
      ∧ (∀ v, lookupStore ([] : ObjStore)
          (demoSha (TypeObject.display .blob ++ NULC :: str "hi")) = some v →
          v = TypeObject.display .blob ++ NULC :: str "hi"))
    ∧ ((getObject (hashObject demoSha [] (str "hi") .blob).2
          (hashObject demoSha [] (str "hi") .blob).1 .blob = .ok (str "hi"))
        ∧ (∀ S₂ : ObjStore,
            (hashObject demoSha S₂ (str "hi") .blob).1
              = (hashObject demoSha [] (str "hi") .blob).1)) :=
  ⟨⟨by decide, fun v h => by simp [lookupStore] at h⟩,
    hash_object_get_object_roundtrip_det demoSha [] (str "hi") .blob
      (by decide) (fun v h => by simp [lookupStore] at h)⟩

/-- C3 (code bug): `get_object` constructs the `TypeMismatch` error with
`anyhow!` but never returns it, so requesting a stored tree as a blob
succeeds and returns the stored content. -/
theorem get_object_kind_mismatch_succeeds :
    getObject (hashObject demoSha [] (str "x") .tree).2
      (hashObject demoSha [] (str "x") .tree).1 .blob = .ok (str "x") := by
  rfl

theorem count_space_lineStr (e : Entry) :
    e.lineStr.count ' ' = e.oid.count ' ' + e.path.count ' ' + 2 := by
  unfold Entry.lineStr
  rw [List.count_append, List.count_cons, List.count_append, List.count_cons]
  have h0 : e.objType.display.count ' ' = 0 :=
    List.count_eq_zero.2 (space_not_mem_display e.objType)
  simp only [h0]
  simp
  omega

/-- C10 (amended): a displayed entry line parses back to the identical
entry when neither the oid nor the path contains a space; when the path
contains a space the split produces more than three fields and the parse
panics, so it never reproduces the entry. -/
theorem entry_line_roundtrip (e : Entry) :
    (' ' ∉ e.oid → ' ' ∉ e.path → entryFrom e.lineStr = .ok e)
    ∧ (' ' ∈ e.path → entryFrom e.lineStr ≠ .ok e) := by
  constructor
  · intro hoid hpath
    unfold entryFrom Entry.lineStr
    dsimp only
    rw [splitCh_sep ' ' e.objType.display _ (space_not_mem_display e.objType),
      splitCh_sep ' ' e.oid _ hoid, splitCh_not_mem ' ' e.path hpath]
    simp only [List.length_cons, List.length_singleton, if_pos rfl,
      List.headD_cons, fromStr_display, List.getD]
    rfl
  · intro hmem
    have hcnt : 0 < e.path.count ' ' := List.count_pos_iff.2 hmem
    have hlen : (splitCh ' ' e.lineStr).length ≠ 3 := by
      rw [length_splitCh, count_space_lineStr]
      omega
    unfold entryFrom
    rw [if_neg hlen]
    intro h
    exact Except.noConfusion h

theorem entry_line_roundtrip_space_oid_counterexample :
    entryFrom (Entry.lineStr ⟨str "p", str "a b", .blob⟩)
      ≠ .ok ⟨str "p", str "a b", .blob⟩ := by
  decide

theorem entry_line_roundtrip_witness :
    (entryFrom (Entry.lineStr ⟨str "./a.txt", str "beef", .blob⟩)
      = .ok ⟨str "./a.txt", str "beef", .blob⟩)
    ∧ (entryFrom (Entry.lineStr ⟨str "./a b.txt", str "beef", .tree⟩)
      ≠ .ok ⟨str "./a b.txt", str "beef", .tree⟩) :=
  ⟨(entry_line_roundtrip ⟨str "./a.txt", str "beef", .blob⟩).1
      (by decide) (by decide),
    (entry_line_roundtrip ⟨str "./a b.txt", str "beef", .tree⟩).2 (by decide)⟩

/-- C9 (amended): a commit object whose first line does not begin with
`"tree"` and a `commit`-kind entry inside a tree both produce typed errors
returned to the caller; but a tree entry line whose space-separated field
count is not 3, or whose kind tag is unrecognized, aborts with a panic
rather than returning an error. -/
theorem malformed_parse_error_kinds :
    (∀ item : Str, (splitCh ' ' item).length ≠ 3 →
      entryFrom item = .error (.panicked (str "Entry must be length == 3")))
    ∧ (∀ item : Str, (splitCh ' ' item).length = 3 →
        TypeObject.fromStr ((splitCh ' ' item).headD []) = none →
        entryFrom item = .error (.panicked (str "called unwrap on an Err value")))
    ∧ (∀ (S : ObjStore) (fuel : Nat) (l : Str) (ls : List Str) (ent : Entry),
        entryFrom l = .ok ent → ent.objType = .commit →
        getTreeGo S (getTree S fuel) (l :: ls)
          = .error (.typed (str "Unknown tree entry.")))
    ∧ (∀ (S : ObjStore) (oid obj : Str) (l0 : Str),
        getObject S oid .commit = .ok obj →
        (rustLines obj)[0]? = some l0 →
        (splitCh ' ' l0).headD [] ≠ str "tree" →
        getCommit S oid
          = .error (.typed (str "Commit object expected including tree object"))) := by
  refine ⟨?_, ?_, ?_, ?_⟩
  · intro item h
    unfold entryFrom
    rw [if_neg h]
  · intro item hlen hkind
    unfold entryFrom
    rw [if_pos hlen, hkind]
  · intro S fuel l ls ent hparse hkind
    unfold getTreeGo
    rw [hparse]
    dsimp only
    rw [hkind]
  · intro S oid obj l0 hobj hl0 hne
    unfold getCommit
    rw [hobj]
    dsimp only
    rw [hl0]
    dsimp only
    rw [if_neg hne]

theorem malformed_parse_panics_counterexample :
    entryFrom (str "a b")
      = .error (.panicked (str "Entry must be length == 3")) := by
  decide

theorem malformed_parse_error_kinds_witness :
    (entryFrom (str "a b c d")
      = .error (.panicked (str "Entry must be length == 3")))
    ∧ (entryFrom (str "bloc x y")
      = .error (.panicked (str "called unwrap on an Err value")))
    ∧ (getTreeGo [] (getTree [] 5) [str "commit cafe ./x"]
      = .error (.typed (str "Unknown tree entry.")))
    ∧ (getCommit [(str "c0", TypeObject.display .commit ++ NULC :: str "oops")]
        (str "c0")
      = .error (.typed (str "Commit object expected including tree object"))) :=
  ⟨malformed_parse_error_kinds.1 (str "a b c d") (by decide),
    malformed_parse_error_kinds.2.1 (str "bloc x y") (by decide) (by decide),
    malformed_parse_error_kinds.2.2.1 [] 5 (str "commit cafe ./x") []
      ⟨str "./x", str "cafe", .commit⟩ (by decide) rfl,
    malformed_parse_error_kinds.2.2.2
      [(str "c0", TypeObject.display .commit ++ NULC :: str "oops")]
      (str "c0") (str "oops") (str "oops") (by decide) (by decide) (by decide)⟩

theorem entryLeB_path_le (a b : Entry) (h : entryLeB a b = true) :
    a.path ≤ b.path := by
  simp only [entryLeB, decide_eq_true_eq, Prod.Lex.le_iff] at h
  rcases h with h | ⟨h, _⟩
  · exact le_of_lt h
  · exact le_of_eq h

theorem sortEntries_eq_mergeSort (l : List Entry) :
    l.mergeSort entryLeB = sortEntries l := by
  have h : (fun a b => decide (entryLeP a b)) = entryLeB := by
    funext a b
    simp [entryLeP]
  rw [sortEntries, ← List.mergeSort_eq_insertionSort entryLeP l, h]

theorem sortEntries_perm (l : List Entry) : (sortEntries l).Perm l :=
  List.perm_insertionSort entryLeP l

theorem sortEntries_sorted (l : List Entry) :
    List.Sorted entryLeP (sortEntries l) :=
  List.sorted_insertionSort entryLeP l

theorem entryOidP_dir (sha1hex : Str → Str) (ign : List Str) (p : Str)
    (d : FsDir) :
    entryOidP sha1hex ign p (.dir d) = treeOidP sha1hex ign p d := rfl

theorem storeFold_append (S : ObjStore) (l1 l2 : List (Str × Str)) :
    storeFold S (l1 ++ l2) = storeFold (storeFold S l1) l2 := by
  simp [storeFold, List.foldl_append]

mutual

theorem writeEntry_agree (sha1hex : Str → Str) (ign : List Str) (p : Str) :
    ∀ (e : FsEntry) (S : ObjStore),
    writeEntryOS sha1hex ign p e S
      = (entryOidP sha1hex ign p e, storeFold S (objsE sha1hex ign p e))
  | .file c, S => by
    simp [writeEntryOS, entryOidP, objsE, hashObject, taggedObj, storeFold]
  | .dir d, S => by
    rw [writeEntryOS, writeDir_agree sha1hex ign p d S]
    simp only [entryOidP, objsE, treeOidP, treeContentP, storeFold_append]
    simp [hashObject, taggedObj, storeFold]
  termination_by e S => (sizeOf e, 0)

theorem writeDir_agree (sha1hex : Str → Str) (ign : List Str) (target : Str) :
    ∀ (d : FsDir) (S : ObjStore),
    writeDirEntries sha1hex ign target d S
      = (dirEntriesP sha1hex ign target d,
          storeFold S (objsD sha1hex ign target d))
  | .nil, S => by
    simp [writeDirEntries, dirEntriesP, objsD, storeFold]
  | .cons n e rest, S => by
    by_cases hig : isIgnored (target ++ '/' :: n) ign
    · simp only [writeDirEntries, dirEntriesP, objsD, hig, if_true]
      exact writeDir_agree sha1hex ign target rest S
    · simp only [writeDirEntries, dirEntriesP, objsD, hig, if_false,
        writeEntry_agree sha1hex ign (target ++ '/' :: n) e S,
        writeDir_agree sha1hex ign target rest, storeFold_append]
      simp [storeFold_append]
  termination_by d S => (sizeOf d, 0)

end

theorem writeTree_agree (sha1hex : Str → Str) (ign : List Str) (target : Str)
    (d : FsDir) (S : ObjStore) :
    writeTreeD sha1hex ign target d S
      = (treeOidP sha1hex ign target d,
          storeFold S (objsT sha1hex ign target d)) := by
  rw [writeTreeD, writeDir_agree sha1hex ign target d]
  simp only [objsT, storeFold_append]
  simp [hashObject, taggedObj, treeOidP, treeContentP, storeFold, putStore]

theorem lookup_mem_assoc (S : ObjStore) (k v : Str)
    (h : List.lookup k S = some v) : (k, v) ∈ S := by
  induction S with
  | nil => simp [List.lookup] at h
  | cons hd tl ih =>
    rw [List.lookup] at h
    by_cases hk : k = hd.1
    · have hb : (k == hd.1) = true := by simp [hk]
      cases hd with
      | mk k' v' =>
        simp only at hb
        rw [hb] at h
        simp only [Option.some.injEq] at h
        subst h
        simp only at hk
        subst hk
        exact List.mem_cons_self _ _
    · have hb : (k == hd.1) = false := by simp [hk]
      cases hd with
      | mk k' v' =>
        simp only at hb
        rw [hb] at h
        exact List.mem_cons_of_mem _ (ih h)

theorem covers_putStore (objs : List (Str × Str)) (S : ObjStore)
    (k v : Str) (hcov : CoversStore objs S) (hkv : (k, v) ∈ objs)
    (hc : Consistent objs) :
    CoversStore objs (putStore S k v)
      ∧ lookupStore (putStore S k v) k = some v := by
  have hval : writeNoTrunc (lookupStore S k) v = v := by
    apply writeNoTrunc_same
    intro o ho
    have hmem : (k, o) ∈ S := lookup_mem_assoc S k o ho
    exact hc (k, o) (hcov _ hmem) (k, v) hkv rfl
  constructor
  · intro kv hkv'
    simp only [putStore, List.mem_cons] at hkv'
    rcases hkv' with h | h
    · rw [h, hval]
      exact hkv
    · exact hcov _ h
  · rw [lookup_putStore_self, hval]

theorem lookup_putStore_preserve (objs : List (Str × Str)) (S : ObjStore)
    (k v k' v' : Str) (hc : Consistent objs)
    (h : lookupStore S k = some v) (hkv : (k, v) ∈ objs)
    (hkv' : (k', v') ∈ objs) :
    lookupStore (putStore S k' v') k = some v := by
  by_cases hk : k = k'
  · subst hk
    rw [lookup_putStore_self, h]
    have hv : v' = v := hc (k, v') hkv' (k, v) hkv rfl
    rw [hv, writeNoTrunc_same (some v) v (fun o ho => (Option.some.inj ho).symm)]
  · rw [lookup_putStore_other S k' k v' hk, h]

theorem storeFold_covers (objs all : List (Str × Str)) (S : ObjStore)
    (hsub : ∀ x ∈ objs, x ∈ all) (hc : Consistent all)
    (hcov : CoversStore all S) : CoversStore all (storeFold S objs) := by
  induction objs generalizing S with
  | nil => exact hcov
  | cons x xs ih =>
    have hx : x ∈ all := hsub x (List.mem_cons_self _ _)
    have := covers_putStore all S x.1 x.2 hcov (by simpa using hx) hc
    exact ih _ (fun y hy => hsub y (List.mem_cons_of_mem _ hy)) this.1

theorem storeFold_preserve (objs all : List (Str × Str)) (S : ObjStore)
    (k v : Str) (hsub : ∀ x ∈ objs, x ∈ all) (hc : Consistent all)
    (h : lookupStore S k = some v) (hkv : (k, v) ∈ all) :
    lookupStore (storeFold S objs) k = some v := by
  induction objs generalizing S with
  | nil => exact h
  | cons x xs ih =>
    have hx : x ∈ all := hsub x (List.mem_cons_self _ _)
    have hstep := lookup_putStore_preserve all S k v x.1 x.2 hc h hkv
      (by simpa using hx)
    exact ih _ (fun y hy => hsub y (List.mem_cons_of_mem _ hy)) hstep

theorem storeFold_lookup (objs all : List (Str × Str)) (S : ObjStore)
    (hsub : ∀ x ∈ objs, x ∈ all) (hc : Consistent all)
    (hcov : CoversStore all S) :
    ∀ x ∈ objs, lookupStore (storeFold S objs) x.1 = some x.2 := by
  induction objs generalizing S with
  | nil => intro x hx; simp at hx
  | cons y ys ih =>
    intro x hx
    have hy : y ∈ all := hsub y (List.mem_cons_self _ _)
    have hput := covers_putStore all S y.1 y.2 hcov (by simpa using hy) hc
    rcases List.mem_cons.1 hx with rfl | hx'
    · exact storeFold_preserve ys all _ x.1 x.2
        (fun z hz => hsub z (List.mem_cons_of_mem _ hz)) hc hput.2
        (by simpa using hy)
    · exact ih _ (fun z hz => hsub z (List.mem_cons_of_mem _ hz)) hput.1 x hx'

/-- After `write_tree` on an initially empty store, every persisted object
is retrievable (collision-freedom of the produced oids assumed). -/
theorem writeTree_store_lookup (sha1hex : Str → Str) (ign : List Str)
    (target : Str) (d : FsDir)
    (hc : Consistent (objsT sha1hex ign target d)) :
    ∀ x ∈ objsT sha1hex ign target d,
      lookupStore (writeTreeD sha1hex ign target d []).2 x.1 = some x.2 := by
  rw [writeTree_agree]
  exact storeFold_lookup _ _ [] (fun x hx => hx) hc (fun kv h => by simp at h)

theorem toListD_ofListD (L : List (Str × FsEntry)) :
    toListD (ofListD L) = L := by
  induction L with
  | nil => rfl
  | cons x r ih => cases x; simp [ofListD, toListD, ih]

theorem dirEntriesP_eq_filterMap (sha1hex : Str → Str) (ign : List Str)
    (target : Str) : ∀ (d : FsDir),
    dirEntriesP sha1hex ign target d
      = (toListD d).filterMap (entF sha1hex ign target)
  | .nil => by simp [dirEntriesP, toListD]
  | .cons n e r => by
    have ih := dirEntriesP_eq_filterMap sha1hex ign target r
    cases e with
    | file c =>
      by_cases hig : isIgnored (target ++ '/' :: n) ign
      · simp [dirEntriesP, toListD, List.filterMap_cons, entF, hig, ih]
      · simp [dirEntriesP, toListD, List.filterMap_cons, entF, hig, ih,
          entryOidP, kindOfE, taggedObj]
    | dir d' =>
      by_cases hig : isIgnored (target ++ '/' :: n) ign
      · simp [dirEntriesP, toListD, List.filterMap_cons, entF, hig, ih]
      · simp [dirEntriesP, toListD, List.filterMap_cons, entF, hig, ih,
          entryOidP, kindOfE]

theorem sortEntries_eq_of_perm (l1 l2 : List Entry) (h : l1.Perm l2) :
    sortEntries l1 = sortEntries l2 := by
  apply List.eq_of_perm_of_sorted (r := entryLeP)
  · exact (sortEntries_perm l1).trans (h.trans (sortEntries_perm l2).symm)
  · exact sortEntries_sorted l1
  · exact sortEntries_sorted l2

mutual

theorem entryOid_canonE (sha1hex : Str → Str) (ign : List Str) :
    ∀ (e : FsEntry) (p : Str),
    entryOidP sha1hex ign p (canonE e) = entryOidP sha1hex ign p e
  | .file c, p => by rw [canonE]
  | .dir d, p => by
    rw [canonE]
    rw [entryOidP_dir, entryOidP_dir,
      show sortD (canonEachD d) = canonD d from rfl]
    simp only [treeOidP]
    rw [treeContent_canonD sha1hex ign d p]
  termination_by e p => (sizeOf e, 0)

theorem dirEntries_canonEach (sha1hex : Str → Str) (ign : List Str) :
    ∀ (d : FsDir) (target : Str),
    dirEntriesP sha1hex ign target (canonEachD d)
      = dirEntriesP sha1hex ign target d
  | .nil, target => by rw [canonEachD]
  | .cons n e r, target => by
    rw [canonEachD]
    simp only [dirEntriesP]
    have hk : kindOfE (canonE e) = kindOfE e := by
      cases e <;> simp [canonE, kindOfE]
    rw [dirEntries_canonEach sha1hex ign r target,
      entryOid_canonE sha1hex ign e (target ++ '/' :: n), hk]
  termination_by d target => (sizeOf d, 0)

theorem treeContent_canonD (sha1hex : Str → Str) (ign : List Str) :
    ∀ (d : FsDir) (target : Str),
    treeContentP sha1hex ign target (canonD d)
      = treeContentP sha1hex ign target d
  | d, target => by
    unfold treeContentP
    have hperm : (dirEntriesP sha1hex ign target (canonD d)).Perm
        (dirEntriesP sha1hex ign target d) := by
      rw [canonD, sortD, dirEntriesP_eq_filterMap, toListD_ofListD]
      have h1 := (List.perm_insertionSort nameLeP
        (toListD (canonEachD d))).filterMap (entF sha1hex ign target)
      rw [← dirEntriesP_eq_filterMap sha1hex ign target (canonEachD d),
        dirEntries_canonEach sha1hex ign d target] at h1
      exact h1
    rw [sortEntries_eq_of_perm _ _ hperm]
  termination_by d target => (sizeOf d, 1)

end

theorem rustLines_flatten_displays (ls : List Str)
    (h : ∀ l ∈ ls, '\n' ∉ l ∧ '\r' ∉ l) :
    rustLines ((ls.map (fun l => l ++ ['\n'])).flatten) = ls := by
  induction ls with
  | nil => exact rustLines_nil
  | cons a rest ih =>
    have ha := h a (List.mem_cons_self _ _)
    have heq : ((a :: rest).map (fun l => l ++ ['\n'])).flatten
        = a ++ '\n' :: (rest.map (fun l => l ++ ['\n'])).flatten := by
      simp [List.flatten_cons, List.append_assoc]
    rw [heq, rustLines_cons a _ ha.1, stripCR_of_not_mem a ha.2,
      ih (fun l hl => h l (List.mem_cons_of_mem _ hl))]

theorem treeContent_lines (sha1hex : Str → Str) (ign : List Str)
    (target : Str) (d : FsDir)
    (h : ∀ e ∈ sortEntries (dirEntriesP sha1hex ign target d),
      '\n' ∉ e.lineStr ∧ '\r' ∉ e.lineStr) :
    rustLines (treeContentP sha1hex ign target d)
      = (sortEntries (dirEntriesP sha1hex ign target d)).map
          Entry.lineStr := by
  unfold treeContentP
  have hd : (sortEntries (dirEntriesP sha1hex ign target d)).map
      Entry.display
      = ((sortEntries (dirEntriesP sha1hex ign target d)).map
          Entry.lineStr).map (fun l => l ++ ['\n']) := by
    simp [List.map_map, Entry.display, Function.comp]
  rw [hd, rustLines_flatten_displays]
  intro l hl
  rw [List.mem_map] at hl
  obtain ⟨e, he, rfl⟩ := hl
  exact h e he

/-- C4: the serialized tree lists one `"{kind} {oid} {path}"` line per
entry, sorted by path ascending, and the tree oid is a function of the
directory's canonical contents: two directories with identical contents in
different enumeration orders receive the same oid. -/
theorem write_tree_sorted_and_order_independent
    (sha1hex : Str → Str) (ign : List Str) (target : Str) (d d2 : FsDir) :
    List.Sorted (fun a b : Entry => a.path ≤ b.path)
      (sortEntries (dirEntriesP sha1hex ign target d))
    ∧ ((∀ e ∈ sortEntries (dirEntriesP sha1hex ign target d),
          '\n' ∉ e.lineStr ∧ '\r' ∉ e.lineStr) →
        rustLines (treeContentP sha1hex ign target d)
          = (sortEntries (dirEntriesP sha1hex ign target d)).map
              Entry.lineStr)
    ∧ (canonD d = canonD d2 →
        treeOidP sha1hex ign target d = treeOidP sha1hex ign target d2) := by
  refine ⟨?_, treeContent_lines sha1hex ign target d, ?_⟩
  · have hs := sortEntries_sorted (dirEntriesP sha1hex ign target d)
    exact hs.imp (fun h => entryLeB_path_le _ _ h)
  · intro hc
    simp only [treeOidP]
    rw [← treeContent_canonD sha1hex ign d target, hc,
      treeContent_canonD sha1hex ign d2 target]

theorem write_tree_sorted_and_order_independent_witness :
    ((∀ e ∈ sortEntries (dirEntriesP demoSha [] (str ".")
        (.cons (str "b") (.file (str "y"))
          (.cons (str "a") (.file (str "x")) .nil))),
        '\n' ∉ e.lineStr ∧ '\r' ∉ e.lineStr)
      ∧ canonD (.cons (str "b") (.file (str "y"))
          (.cons (str "a") (.file (str "x")) .nil))
        = canonD (.cons (str "a") (.file (str "x"))
            (.cons (str "b") (.file (str "y")) .nil)))
    ∧ (rustLines (treeContentP demoSha [] (str ".")
        (.cons (str "b") (.file (str "y"))
          (.cons (str "a") (.file (str "x")) .nil)))
        = (sortEntries (dirEntriesP demoSha [] (str ".")
            (.cons (str "b") (.file (str "y"))
              (.cons (str "a") (.file (str "x")) .nil)))).map Entry.lineStr
      ∧ treeOidP demoSha [] (str ".")
          (.cons (str "b") (.file (str "y"))
            (.cons (str "a") (.file (str "x")) .nil))
        = treeOidP demoSha [] (str ".")
            (.cons (str "a") (.file (str "x"))
              (.cons (str "b") (.file (str "y")) .nil))) :=
  ⟨⟨by decide, by decide⟩,
    (write_tree_sorted_and_order_independent demoSha [] (str ".")
      (.cons (str "b") (.file (str "y"))
        (.cons (str "a") (.file (str "x")) .nil))
      (.cons (str "a") (.file (str "x"))
        (.cons (str "b") (.file (str "y")) .nil))).2.1 (by decide),
    (write_tree_sorted_and_order_independent demoSha [] (str ".")
      (.cons (str "b") (.file (str "y"))
        (.cons (str "a") (.file (str "x")) .nil))
      (.cons (str "a") (.file (str "x"))
        (.cons (str "b") (.file (str "y")) .nil))).2.2 (by decide)⟩

theorem diffGo_self (S : ObjStore) (d : List (Str × Str)) :
    ∀ ps : List Str, diffGo S d d ps = .ok [] := by
  intro ps
  induction ps with
  | nil => rfl
  | cons p ps ih =>
    unfold diffGo
    cases hf : List.lookup p d with
    | none => simp [hf, ih]
    | some fo => simp [hf, ih]

theorem diffGo_spec (S : ObjStore) (fromD toD : List (Str × Str)) :
    ∀ (ps : List Str), ps.Nodup →
    ∀ res, diffGo S fromD toD ps = .ok res →
      res.Nodup ∧ (∀ q ∈ res, q ∈ ps)
      ∧ ∀ p, p ∈ res ↔ (p ∈ ps ∧
          ((∃ fo to_o, List.lookup p fromD = some fo
              ∧ List.lookup p toD = some to_o ∧ fo ≠ to_o)
            ∨ (∃ fo, List.lookup p fromD = some fo
                ∧ List.lookup p toD = none)
            ∨ (List.lookup p fromD = none
                ∧ ∃ to_o, List.lookup p toD = some to_o))) := by
  intro ps
  induction ps with
  | nil =>
    intro _ res hres
    cases hres
    simp
  | cons p ps ih =>
    intro hnodup res hres
    rw [List.nodup_cons] at hnodup
    obtain ⟨hp, hnd⟩ := hnodup
    unfold diffGo at hres
    cases hf : List.lookup p fromD with
    | some fo =>
      cases ht : List.lookup p toD with
      | some to_o =>
        rw [hf, ht] at hres
        dsimp only at hres
        by_cases hne : fo ≠ to_o
        · rw [if_pos hne] at hres
          cases hd : displayDiffFile S (some fo) (some to_o) with
          | error e => rw [hd] at hres; exact absurd hres (by simp)
          | ok u =>
            rw [hd] at hres
            cases hr : diffGo S fromD toD ps with
            | error e => rw [hr] at hres; exact absurd hres (by simp)
            | ok r =>
              rw [hr] at hres
              obtain rfl : (p :: r) = res := by
                simpa using hres
              obtain ⟨hnd', hsub', hiff'⟩ := ih hnd r hr
              refine ⟨?_, ?_, ?_⟩
              · exact List.nodup_cons.2 ⟨fun hc => hp (hsub' p hc), hnd'⟩
              · intro q hq
                rcases List.mem_cons.1 hq with rfl | hq'
                · exact List.mem_cons_self _ _
                · exact List.mem_cons_of_mem _ (hsub' q hq')
              · intro q
                rcases eq_or_ne q p with rfl | hqp
                · simp only [List.mem_cons, true_or, true_iff]
                  exact ⟨trivial, .inl ⟨fo, to_o, hf, ht, hne⟩⟩
                · constructor
                  · intro hq
                    rcases List.mem_cons.1 hq with rfl | hq'
                    · exact absurd rfl hqp
                    · have := (hiff' q).1 hq'
                      exact ⟨List.mem_cons_of_mem _ this.1, this.2⟩
                  · intro ⟨hqmem, hcls⟩
                    rcases List.mem_cons.1 hqmem with rfl | hq'
                    · exact absurd rfl hqp
                    · exact List.mem_cons_of_mem _
                        ((hiff' q).2 ⟨hq', hcls⟩)
        · rw [if_neg hne] at hres
          push_neg at hne
          subst hne
          obtain ⟨hnd', hsub', hiff'⟩ := ih hnd res hres
          refine ⟨hnd', fun q hq => List.mem_cons_of_mem _ (hsub' q hq), ?_⟩
          intro q
          rcases eq_or_ne q p with rfl | hqp
          · constructor
            · intro hq
              exact absurd (hsub' q hq) hp
            · intro ⟨_, hcls⟩
              rcases hcls with ⟨fo', to_o', hf', ht', hne'⟩ | ⟨fo', hf', ht'⟩
                | ⟨hf', _⟩
              · rw [hf] at hf'
                rw [ht] at ht'
                cases hf'
                cases ht'
                exact absurd rfl hne'
              · rw [ht] at ht'
                cases ht'
              · rw [hf] at hf'
                cases hf'
          · rw [hiff' q]
            simp [List.mem_cons, hqp]
      | none =>
        rw [hf, ht] at hres
        dsimp only at hres
        cases hd : displayDiffFile S (some fo) none with
        | error e => rw [hd] at hres; exact absurd hres (by simp)
        | ok u =>
          rw [hd] at hres
          cases hr : diffGo S fromD toD ps with
          | error e => rw [hr] at hres; exact absurd hres (by simp)
          | ok r =>
            rw [hr] at hres
            obtain rfl : (p :: r) = res := by simpa using hres
            obtain ⟨hnd', hsub', hiff'⟩ := ih hnd r hr
            refine ⟨?_, ?_, ?_⟩
            · exact List.nodup_cons.2 ⟨fun hc => hp (hsub' p hc), hnd'⟩
            · intro q hq
              rcases List.mem_cons.1 hq with rfl | hq'
              · exact List.mem_cons_self _ _
              · exact List.mem_cons_of_mem _ (hsub' q hq')
            · intro q
              rcases eq_or_ne q p with rfl | hqp
              · simp only [List.mem_cons, true_or, true_iff]
                exact ⟨trivial, .inr (.inl ⟨fo, hf, ht⟩)⟩
              · constructor
                · intro hq
                  rcases List.mem_cons.1 hq with rfl | hq'
                  · exact absurd rfl hqp
                  · have := (hiff' q).1 hq'
                    exact ⟨List.mem_cons_of_mem _ this.1, this.2⟩
                · intro ⟨hqmem, hcls⟩
                  rcases List.mem_cons.1 hqmem with rfl | hq'
                  · exact absurd rfl hqp
                  · exact List.mem_cons_of_mem _ ((hiff' q).2 ⟨hq', hcls⟩)
    | none =>
      cases ht : List.lookup p toD with
      | some to_o =>
        rw [hf, ht] at hres
        dsimp only at hres
        cases hd : displayDiffFile S none (some to_o) with
        | error e => rw [hd] at hres; exact absurd hres (by simp)
        | ok u =>
          rw [hd] at hres
          cases hr : diffGo S fromD toD ps with
          | error e => rw [hr] at hres; exact absurd hres (by simp)
          | ok r =>
            rw [hr] at hres
            obtain rfl : (p :: r) = res := by simpa using hres
            obtain ⟨hnd', hsub', hiff'⟩ := ih hnd r hr
            refine ⟨?_, ?_, ?_⟩
            · exact List.nodup_cons.2 ⟨fun hc => hp (hsub' p hc), hnd'⟩
            · intro q hq
              rcases List.mem_cons.1 hq with rfl | hq'
              · exact List.mem_cons_self _ _
              · exact List.mem_cons_of_mem _ (hsub' q hq')
            · intro q
              rcases eq_or_ne q p with rfl | hqp
              · simp only [List.mem_cons, true_or, true_iff]
                exact ⟨trivial, .inr (.inr ⟨hf, to_o, ht⟩)⟩
              · constructor
                · intro hq
                  rcases List.mem_cons.1 hq with rfl | hq'
                  · exact absurd rfl hqp
                  · have := (hiff' q).1 hq'
                    exact ⟨List.mem_cons_of_mem _ this.1, this.2⟩
                · intro ⟨hqmem, hcls⟩
                  rcases List.mem_cons.1 hqmem with rfl | hq'
                  · exact absurd rfl hqp
                  · exact List.mem_cons_of_mem _ ((hiff' q).2 ⟨hq', hcls⟩)
      | none =>
        rw [hf, ht] at hres
        dsimp only at hres
        obtain ⟨hnd', hsub', hiff'⟩ := ih hnd res hres
        refine ⟨hnd', fun q hq => List.mem_cons_of_mem _ (hsub' q hq), ?_⟩
        intro q
        rcases eq_or_ne q p with rfl | hqp
        · constructor
          · intro hq
            exact absurd (hsub' q hq) hp
          · intro ⟨_, hcls⟩
            rcases hcls with ⟨fo', to_o', hf', _, _⟩ | ⟨fo', hf', _⟩
              | ⟨_, to_o', ht'⟩
            · rw [hf] at hf'
              cases hf'
            · rw [hf] at hf'
              cases hf'
            · rw [ht] at ht'
              cases ht'
        · rw [hiff' q]
          simp [List.mem_cons, hqp]

theorem lookup_convertDict_mem (t : List Entry) (p o : Str)
    (h : List.lookup p (convertDict t) = some o) : p ∈ t.map Entry.path := by
  have hgen : ∀ (acc : List (Str × Str)),
      (∀ x ∈ acc, x.1 ∈ t.map Entry.path ∨ x.1 ∈ ([] : List Str)) → True :=
    fun _ _ => trivial
  clear hgen
  have key : ∀ (l : List Entry) (acc : List (Str × Str)),
      List.lookup p (l.foldl (fun d e => (e.path, e.oid) :: d) acc) = some o →
      p ∈ l.map Entry.path ∨ List.lookup p acc = some o := by
    intro l
    induction l with
    | nil => intro acc h'; exact .inr h'
    | cons e es ih =>
      intro acc h'
      rcases ih ((e.path, e.oid) :: acc) h' with hmem | hacc
      · exact .inl (List.mem_cons_of_mem _ hmem)
      · rw [List.lookup_cons] at hacc
        by_cases hpe : p = e.path
        · exact .inl (by simp [hpe])
        · have hb : (p == e.path) = false := by simp [hpe]
          rw [hb] at hacc
          exact .inr hacc
  rcases key t [] h with hmem | hacc
  · exact hmem
  · simp [List.lookup] at hacc

/-- C5: `diff_trees` reports exactly the paths in the union of the two path
sets whose classification is non-trivial — present in both dicts with
different oids (modified), present only in `to` (created), present only in
`from` (removed) — and `diff_trees(T, T)` reports no paths at all. -/
theorem diff_trees_classification (S : ObjStore)
    (fromT toT tt : List Entry) :
    (diffTrees S tt tt = .ok [])
    ∧ (∀ res, diffTrees S fromT toT = .ok res →
        res.Nodup ∧ ∀ p : Str, p ∈ res ↔
          ((p ∈ fromT.map Entry.path ∨ p ∈ toT.map Entry.path)
            ∧ ((∃ fo to_o, List.lookup p (convertDict fromT) = some fo
                  ∧ List.lookup p (convertDict toT) = some to_o ∧ fo ≠ to_o)
              ∨ (∃ fo, List.lookup p (convertDict fromT) = some fo
                  ∧ List.lookup p (convertDict toT) = none)
              ∨ (List.lookup p (convertDict fromT) = none
                  ∧ ∃ to_o, List.lookup p (convertDict toT) = some to_o)))) := by
  constructor
  · exact diffGo_self S (convertDict tt) _
  · intro res hres
    obtain ⟨hnd, hsub, hiff⟩ := diffGo_spec S (convertDict fromT)
      (convertDict toT) _ (List.nodup_dedup _) res hres
    refine ⟨hnd, fun p => ?_⟩
    rw [hiff p]
    constructor
    · intro ⟨hmem, hcls⟩
      rw [List.mem_dedup, List.mem_append] at hmem
      exact ⟨hmem, hcls⟩
    · intro ⟨_, hcls⟩
      refine ⟨?_, hcls⟩
      rw [List.mem_dedup, List.mem_append]
      rcases hcls with ⟨fo, to_o, hf, _, _⟩ | ⟨fo, hf, _⟩ | ⟨_, to_o, ht⟩
      · exact .inl (lookup_convertDict_mem fromT p fo hf)
      · exact .inl (lookup_convertDict_mem fromT p fo hf)
      · exact .inr (lookup_convertDict_mem toT p to_o ht)

theorem diff_trees_classification_witness :
    (diffTrees [] [⟨str "a", str "11", .blob⟩] [⟨str "a", str "11", .blob⟩]
      = .ok [])
    ∧ (diffTrees [(str "11", taggedObj .blob (str "x"))]
        [⟨str "a", str "11", .blob⟩] [] = .ok [str "a"])
    ∧ (str "a" ∈ ([str "a"] : List Str) ↔
        ((str "a" ∈ ([⟨str "a", str "11", .blob⟩] : List Entry).map Entry.path
            ∨ str "a" ∈ ([] : List Entry).map Entry.path)
          ∧ ((∃ fo to_o,
                List.lookup (str "a")
                  (convertDict [⟨str "a", str "11", .blob⟩]) = some fo
                ∧ List.lookup (str "a") (convertDict []) = some to_o
                ∧ fo ≠ to_o)
            ∨ (∃ fo,
                List.lookup (str "a")
                  (convertDict [⟨str "a", str "11", .blob⟩]) = some fo
                ∧ List.lookup (str "a") (convertDict []) = none)
            ∨ (List.lookup (str "a")
                  (convertDict [⟨str "a", str "11", .blob⟩]) = none
                ∧ ∃ to_o,
                  List.lookup (str "a") (convertDict []) = some to_o)))) :=
  ⟨(diff_trees_classification [] [] [] [⟨str "a", str "11", .blob⟩]).1,
    by decide,
    ((diff_trees_classification [(str "11", taggedObj .blob (str "x"))]
        [⟨str "a", str "11", .blob⟩] [] []).2 [str "a"] (by decide)).2
      (str "a")⟩

theorem utf8Size_of_hex (c : Char) (h : isAsciiHexDigitCh c = true) :
    c.utf8Size = 1 := by
  have hlt : c.val.toNat < 128 := by
    have hcases : c ≤ '9' ∨ c ≤ 'f' ∨ c ≤ 'F' := by
      simp only [isAsciiHexDigitCh, Char.isDigit, Bool.or_eq_true,
        Bool.and_eq_true, decide_eq_true_eq] at h
      rcases h with (⟨_, h2⟩ | ⟨_, h2⟩) | ⟨_, h2⟩
      · exact .inl h2
      · exact .inr (.inl h2)
      · exact .inr (.inr h2)
    rcases hcases with h2 | h2 | h2
    · rw [Char.le_def] at h2
      have h2' : c.val.toNat ≤ ('9').val.toNat := h2
      have h9 : ('9').val.toNat = 57 := by decide
      omega
    · rw [Char.le_def] at h2
      have h2' : c.val.toNat ≤ ('f').val.toNat := h2
      have hf : ('f').val.toNat = 102 := by decide
      omega
    · rw [Char.le_def] at h2
      have h2' : c.val.toNat ≤ ('F').val.toNat := h2
      have hF : ('F').val.toNat = 70 := by decide
      omega
  have hle : c.val ≤ (0x7F : UInt32) := by
    have h127 : (0x7F : UInt32).toNat = 127 := by decide
    exact (by omega : c.val.toNat ≤ (0x7F : UInt32).toNat)
  unfold Char.utf8Size
  simp [hle]

theorem strByteLen_of_hex (s : Str)
    (h : ∀ c ∈ s, isAsciiHexDigitCh c = true) :
    strByteLen s = s.length := by
  induction s with
  | nil => rfl
  | cons c cs ih =>
    simp only [strByteLen, List.map_cons, List.sum_cons, List.length_cons]
    rw [utf8Size_of_hex c (h c (List.mem_cons_self _ _))]
    have := ih (fun x hx => h x (List.mem_cons_of_mem _ hx))
    simp only [strByteLen] at this
    omega

/-- C6: `get_oid` tries exactly the four ref candidates in order — literal
name, `refs/{name}`, `refs/tags/{name}`, `refs/heads/{name}` — returning
the resolved oid of the first that exists; when none exists it returns the
name itself exactly when the name consists of 40 ASCII hexadecimal
characters, and fails with a name-resolution error otherwise. -/
theorem get_oid_resolution (R : RefStore) (fuel : Nat) (name : Str) :
    (∀ o, getRefSpec R fuel name = .ok (some o) →
      getOid R fuel name = .ok o)
    ∧ (getRefSpec R fuel name = .ok none →
        ∀ o, getRefSpec R fuel (str "refs/" ++ name) = .ok (some o) →
          getOid R fuel name = .ok o)
    ∧ (getRefSpec R fuel name = .ok none →
        getRefSpec R fuel (str "refs/" ++ name) = .ok none →
        ∀ o, getRefSpec R fuel (str "refs/tags/" ++ name) = .ok (some o) →
          getOid R fuel name = .ok o)
    ∧ (getRefSpec R fuel name = .ok none →
        getRefSpec R fuel (str "refs/" ++ name) = .ok none →
        getRefSpec R fuel (str "refs/tags/" ++ name) = .ok none →
        ∀ o, getRefSpec R fuel (str "refs/heads/" ++ name) = .ok (some o) →
          getOid R fuel name = .ok o)
    ∧ (getRefSpec R fuel name = .ok none →
        getRefSpec R fuel (str "refs/" ++ name) = .ok none →
        getRefSpec R fuel (str "refs/tags/" ++ name) = .ok none →
        getRefSpec R fuel (str "refs/heads/" ++ name) = .ok none →
        getOid R fuel name
          = if name.length = 40 ∧ ∀ c ∈ name, isAsciiHexDigitCh c = true
            then .ok name
            else .error (.typed (str "Unknown name and not hash value"))) := by
  refine ⟨?_, ?_, ?_, ?_, ?_⟩
  · intro o h
    simp [getOid, getOidGo, h]
  · intro h1 o h
    simp [getOid, getOidGo, h1, h]
  · intro h1 h2 o h
    simp [getOid, getOidGo, h1, h2, h]
  · intro h1 h2 h3 o h
    simp [getOid, getOidGo, h1, h2, h3, h]
  · intro h1 h2 h3 h4
    simp only [getOid, getOidGo, h1, h2, h3, h4]
    by_cases hhex : ∀ c ∈ name, isAsciiHexDigitCh c = true
    · have hall : name.all isAsciiHexDigitCh = true := by
        rw [List.all_eq_true]
        exact hhex
      rw [strByteLen_of_hex name hhex, hall]
      by_cases hlen : name.length = 40
      · have hcond : name.length = 40
            ∧ ∀ c ∈ name, isAsciiHexDigitCh c = true := ⟨hlen, hhex⟩
        rw [if_pos hcond]
        simp [hlen]
      · have hb : (name.length == 40) = false := by simp [hlen]
        have hcond : ¬(name.length = 40
            ∧ ∀ c ∈ name, isAsciiHexDigitCh c = true) := fun hc => hlen hc.1
        rw [if_neg hcond]
        simp [hb]
    · have hall : name.all isAsciiHexDigitCh = false := by
        rw [← Bool.not_eq_true, List.all_eq_true]
        exact hhex
      rw [hall]
      simp [hhex]

theorem get_oid_resolution_witness :
    ((getRefSpec [(str "refs/tags/v1", str "beef")] 3 (str "v1") = .ok none)
      ∧ (getRefSpec [(str "refs/tags/v1", str "beef")] 3 (str "refs/v1")
          = .ok none)
      ∧ (getRefSpec [(str "refs/tags/v1", str "beef")] 3 (str "refs/tags/v1")
          = .ok (some (str "beef"))))
    ∧ (getOid [(str "refs/tags/v1", str "beef")] 3 (str "v1")
        = .ok (str "beef")) :=
  ⟨⟨by decide, by decide, by decide⟩,
    (get_oid_resolution [(str "refs/tags/v1", str "beef")] 3 (str "v1")).2.2.1
      (by decide) (by decide) (str "beef") (by decide)⟩

theorem isPrefixB_iff (p : Str) : ∀ s : Str,
    isPrefixB p s = true ↔ ∃ t, s = p ++ t := by
  induction p with
  | nil =>
    intro s
    simp [isPrefixB]
  | cons a ps ih =>
    intro s
    cases s with
    | nil =>
      simp only [isPrefixB, List.cons_append]
      constructor
      · intro hh
        exact absurd hh (by simp)
      · intro ⟨t, ht⟩
        exact absurd ht (by simp)
    | cons b bs =>
      simp only [isPrefixB, Bool.and_eq_true, decide_eq_true_eq, ih bs]
      constructor
      · intro ⟨hab, t, ht⟩
        exact ⟨t, by simp [hab, ht]⟩
      · intro ⟨t, ht⟩
        simp only [List.cons_append, List.cons.injEq] at ht
        exact ⟨ht.1.symm, t, ht.2⟩

theorem splitCh_colon_ref (v : Str)
    (h : isPrefixB (str "ref:") v = true) :
    ∃ v', (splitCh ':' v)[1]? = some v' := by
  obtain ⟨t, rfl⟩ := (isPrefixB_iff (str "ref:") v).1 h
  have hshape : str "ref:" ++ t = str "ref" ++ ':' :: t := by rfl
  rw [hshape, splitCh_sep ':' (str "ref") t (by decide)]
  cases hs : splitCh ':' t with
  | nil => exact absurd hs (splitCh_ne_nil ':' t)
  | cons h1 t1 => exact ⟨h1, by simp⟩

/-- Without `deref`, `update_ref` always writes the named ref file itself. -/
theorem updateRef_nonderef (R : RefStore) (f : Nat) (refs : Str)
    (rv : RefValue) :
    updateRef R (f + 1) refs rv false = updateRefWrite R refs rv := by
  unfold updateRef getRefInternal
  cases hv : lookupRefs R refs with
  | none => rfl
  | some v =>
    by_cases hsym : ((!v.isEmpty) && isPrefixB (str "ref:") v) = true
    · obtain ⟨v', hv'⟩ := splitCh_colon_ref v
        (by
          rw [Bool.and_eq_true] at hsym
          exact hsym.2)
      simp [hsym, hv']
    · simp [hsym]

/-- A successful dereferencing resolution ends at an existing,
non-symbolic ref file, whose name it records in `ref_oid`. -/
theorem getRefInternal_deref_inv (R : RefStore) :
    ∀ (fuel : Nat) (name : Str) (rv : RefValue),
    getRefInternal R fuel name true = .ok (some rv) →
    ∃ tn v, rv.refOid = some tn ∧ lookupRefs R tn = some v ∧ rv.value = v
      ∧ ((!v.isEmpty) && isPrefixB (str "ref:") v) = false := by
  intro fuel
  induction fuel with
  | zero =>
    intro name rv h
    exact absurd h (by simp [getRefInternal])
  | succ f ih =>
    intro name rv h
    unfold getRefInternal at h
    cases hv : lookupRefs R name with
    | none =>
      rw [hv] at h
      exact absurd h (by simp)
    | some v =>
      rw [hv] at h
      dsimp only at h
      by_cases hsym : ((!v.isEmpty) && isPrefixB (str "ref:") v) = true
      · rw [if_pos hsym] at h
        obtain ⟨v', hv'⟩ := splitCh_colon_ref v
          (by
            rw [Bool.and_eq_true] at hsym
            exact hsym.2)
        rw [hv'] at h
        dsimp only at h
        rw [if_pos rfl] at h
        exact ih v' rv h
      · rw [if_neg hsym] at h
        obtain rfl : RefValue.mk (some name) false v = rv := by
          simpa using h
        exact ⟨name, v, rfl, hv, rfl, by simpa using hsym⟩

theorem not_mem_app {c : Char} {a b : Str} (ha : c ∉ a) (hb : c ∉ b) :
    c ∉ a ++ b := fun h => (List.mem_append.1 h).elim ha hb

theorem not_mem_cons_of {c x : Char} {l : Str} (hx : c ≠ x) (hl : c ∉ l) :
    c ∉ x :: l := by simp [hx, hl]

/-- Parsing a commit object serialized by `commit` recovers the tree oid
and the optional parent oid exactly. -/
theorem getCommit_parse (O : ObjStore) (coid t : Str) (popt : Option Str)
    (msg : Str)
    (hlook : lookupStore O coid
      = some (taggedObj .commit (commitContent t popt msg)))
    (ht : OidOk t) (hp : ∀ p, popt = some p → OidOk p)
    (hmsg : NULC ∉ msg) :
    ∃ m, getCommit O coid = .ok ⟨t, popt, m⟩ := by
  have hnl0 : '\n' ∉ str "tree " ++ t :=
    not_mem_app (by decide) ht.2.2.1
  have hcr0 : '\r' ∉ str "tree " ++ t :=
    not_mem_app (by decide) ht.2.2.2.1
  have hf0 : splitCh ' ' (str "tree " ++ t) = [str "tree", t] := by
    have hsh : (str "tree " ++ t) = str "tree" ++ ' ' :: t := rfl
    rw [hsh, splitCh_sep ' ' (str "tree") t (by decide),
      splitCh_not_mem ' ' t ht.2.1]
  rcases popt with _ | p
  · have hcn : NULC ∉ commitContent t none msg := by
      intro hmem
      have hA : NULC ∉ str "tree " := by decide
      have hB : NULC ∉ t := ht.2.2.2.2.1
      have hC : ¬(NULC = '\n') := by decide
      simp only [commitContent, List.nil_append, List.mem_append,
        List.mem_cons, List.not_mem_nil, List.mem_singleton] at hmem
      tauto
    have hobj : getObject O coid .commit = .ok (commitContent t none msg) :=
      getObject_of_lookup_clean O coid .commit .commit _ hlook hcn
    have hshape : commitContent t none msg
        = (str "tree " ++ t) ++ '\n' :: ([] ++ '\n' :: (msg ++ ['\n'])) := by
      simp [commitContent, List.append_assoc]
    have hls : rustLines (commitContent t none msg)
        = (str "tree " ++ t) :: ([] : Str) :: rustLines (msg ++ ['\n']) := by
      rw [hshape, rustLines_cons _ _ hnl0, stripCR_of_not_mem _ hcr0,
        rustLines_cons [] _ (by decide)]
      rfl
    unfold getCommit
    rw [hobj]
    dsimp only
    rw [hls]
    simp only [List.getElem?_cons_zero, List.getElem?_cons_succ]
    rw [hf0]
    have hsp : splitCh ' ' ([] : Str) = [[]] := rfl
    rw [hsp]
    have hne : ¬(([] : Str) = str "parent") := by decide
    simp only [List.headD_cons, eq_self_iff_true, if_true, if_neg hne]
    exact ⟨_, rfl⟩
  · have hpok := hp p rfl
    have hcn : NULC ∉ commitContent t (some p) msg := by
      intro hmem
      have hA : NULC ∉ str "tree " := by decide
      have hB : NULC ∉ t := ht.2.2.2.2.1
      have hC : ¬(NULC = '\n') := by decide
      have hD : NULC ∉ str "parent " := by decide
      have hE : NULC ∉ p := hpok.2.2.2.2.1
      simp only [commitContent, List.mem_append, List.mem_cons,
        List.not_mem_nil, List.mem_singleton] at hmem
      tauto
    have hobj : getObject O coid .commit
        = .ok (commitContent t (some p) msg) :=
      getObject_of_lookup_clean O coid .commit .commit _ hlook hcn
    have hshape : commitContent t (some p) msg
        = (str "tree " ++ t) ++ '\n' ::
          ((str "parent " ++ p) ++ '\n' :: ([] ++ '\n' :: (msg ++ ['\n']))) := by
      simp [commitContent, List.append_assoc]
    have hls : rustLines (commitContent t (some p) msg)
        = (str "tree " ++ t) :: (str "parent " ++ p) :: ([] : Str)
            :: rustLines (msg ++ ['\n']) := by
      rw [hshape, rustLines_cons _ _ hnl0, stripCR_of_not_mem _ hcr0,
        rustLines_cons _ _ (not_mem_app (by decide) hpok.2.2.1),
        stripCR_of_not_mem _ (not_mem_app (by decide) hpok.2.2.2.1),
        rustLines_cons [] _ (by decide)]
      rfl
    unfold getCommit
    rw [hobj]
    dsimp only
    rw [hls]
    simp only [List.getElem?_cons_zero, List.getElem?_cons_succ]
    rw [hf0]
    have hf1 : splitCh ' ' (str "parent " ++ p) = [str "parent", p] := by
      have hsh : (str "parent " ++ p) = str "parent" ++ ' ' :: p := rfl
      rw [hsh, splitCh_sep ' ' (str "parent") p (by decide),
        splitCh_not_mem ' ' p hpok.2.1]
    rw [hf1]
    simp only [List.headD_cons, eq_self_iff_true, if_true]
    exact ⟨_, rfl⟩

/-- C7: with no resolvable `HEAD` the stored commit object has no parent
line, and `HEAD` itself receives the new commit oid; when `HEAD` resolves,
the new commit's parent line carries exactly the previous `HEAD` oid, and
the ref file the resolution ended at (the branch, when `HEAD` is symbolic)
is advanced to the new commit oid — a symbolic `HEAD` is left untouched. -/
theorem commit_parent_and_head_advance (sha1hex : Str → Str)
    (ign : List Str) (f : Nat) (T : FsDir) (O : ObjStore) (R : RefStore)
    (msg : Str) (hr : Option RefValue) (toid cid : Str) (O1 : ObjStore)
    (hwt : writeTreeD sha1hex ign (str ".") T O = (toid, O1))
    (hres : getRefInternal R (f + 1) (str "HEAD") true = .ok hr)
    (ht : OidOk toid) (hp : ∀ rv, hr = some rv → OidOk rv.value)
    (hmsg : NULC ∉ msg)
    (hcid : cid = sha1hex (TypeObject.commit.display ++ NULC ::
        commitContent toid (hr.map RefValue.value) msg))
    (hne : cid ≠ [])
    (hcoll : ∀ v, lookupStore O1 cid = some v →
        v = TypeObject.commit.display ++ NULC ::
          commitContent toid (hr.map RefValue.value) msg) :
    ∃ O2 R2,
      commitOp sha1hex ign (f + 1) T O R msg = .ok (cid, O2, R2)
      ∧ (∃ m, getCommit O2 cid = .ok ⟨toid, hr.map RefValue.value, m⟩)
      ∧ (hr = none → R2 = (str "HEAD", cid) :: R)
      ∧ (∀ rv, hr = some rv → ∃ tn, rv.refOid = some tn
          ∧ R2 = (tn, cid) :: R
          ∧ lookupRefs R2 tn = some cid
          ∧ (∀ h, lookupRefs R (str "HEAD") = some h →
              ((!h.isEmpty) && isPrefixB (str "ref:") h) = true →
              ¬(tn = str "HEAD") ∧ lookupRefs R2 (str "HEAD") = some h)) := by
  subst hcid
  have hE : ¬((sha1hex (TypeObject.commit.display ++ NULC ::
      commitContent toid (hr.map RefValue.value) msg)).isEmpty = true) :=
    fun he => hne (List.isEmpty_iff.mp he)
  rcases hr with _ | rv
  · have hupd : updateRef R (f + 1) (str "HEAD")
        ⟨some (sha1hex (TypeObject.commit.display ++ NULC ::
            commitContent toid ((none : Option RefValue).map RefValue.value)
              msg)), false,
          sha1hex (TypeObject.commit.display ++ NULC ::
            commitContent toid ((none : Option RefValue).map RefValue.value)
              msg)⟩ true
        = .ok (sha1hex (TypeObject.commit.display ++ NULC ::
            commitContent toid ((none : Option RefValue).map RefValue.value)
              msg),
          (str "HEAD",
            sha1hex (TypeObject.commit.display ++ NULC ::
              commitContent toid
                ((none : Option RefValue).map RefValue.value) msg)) :: R) := by
      unfold updateRef
      rw [hres]
      dsimp only
      unfold updateRefWrite
      rw [if_neg hE]
      simp
    refine ⟨putStore O1
        (sha1hex (TypeObject.commit.display ++ NULC ::
          commitContent toid ((none : Option RefValue).map RefValue.value)
            msg))
        (TypeObject.commit.display ++ NULC ::
          commitContent toid ((none : Option RefValue).map RefValue.value)
            msg),
      (str "HEAD",
        sha1hex (TypeObject.commit.display ++ NULC ::
          commitContent toid ((none : Option RefValue).map RefValue.value)
            msg)) :: R, ?_, ?_, fun _ => rfl,
      fun rv hrv => absurd hrv (by simp)⟩
    · unfold commitOp
      rw [hwt, hres]
      dsimp only
      unfold hashObject
      dsimp only
      rw [hupd]
    · exact getCommit_parse _ _ toid ((none : Option RefValue).map
          RefValue.value) msg
        (hashObject_lookup sha1hex O1 _ .commit hcoll) ht
        (fun p hpp => absurd hpp (by simp)) hmsg
  · obtain ⟨tn, v, hro, hlk, hvv, hnonsym⟩ :=
      getRefInternal_deref_inv R (f + 1) (str "HEAD") rv hres
    have hupd : updateRef R (f + 1) (str "HEAD")
        ⟨some (sha1hex (TypeObject.commit.display ++ NULC ::
            commitContent toid ((some rv).map RefValue.value) msg)), false,
          sha1hex (TypeObject.commit.display ++ NULC ::
            commitContent toid ((some rv).map RefValue.value) msg)⟩ true
        = .ok (sha1hex (TypeObject.commit.display ++ NULC ::
            commitContent toid ((some rv).map RefValue.value) msg),
          (tn, sha1hex (TypeObject.commit.display ++ NULC ::
            commitContent toid ((some rv).map RefValue.value) msg)) :: R) := by
      unfold updateRef
      rw [hres]
      dsimp only
      rw [hro]
      dsimp only
      unfold updateRefWrite
      rw [if_neg hE]
      simp
    refine ⟨putStore O1
        (sha1hex (TypeObject.commit.display ++ NULC ::
          commitContent toid ((some rv).map RefValue.value) msg))
        (TypeObject.commit.display ++ NULC ::
          commitContent toid ((some rv).map RefValue.value) msg),
      (tn,
        sha1hex (TypeObject.commit.display ++ NULC ::
          commitContent toid ((some rv).map RefValue.value) msg)) :: R,
      ?_, ?_, fun hno => absurd hno (by simp), ?_⟩
    · unfold commitOp
      rw [hwt, hres]
      dsimp only
      unfold hashObject
      dsimp only
      rw [hupd]
    · exact getCommit_parse _ _ toid ((some rv).map RefValue.value) msg
        (hashObject_lookup sha1hex O1 _ .commit hcoll) ht
        (fun p hpp => by
          simp only [Option.map_some'] at hpp
          injection hpp with hpe
          subst hpe
          exact hp rv rfl) hmsg
    · intro rv' hrv'
      injection hrv' with hre
      subst hre
      refine ⟨tn, hro, rfl, ?_, ?_⟩
      · simp [lookupRefs, List.lookup]
      · intro h hh hsym
        have htn : ¬(tn = str "HEAD") := by
          intro he
          rw [he] at hlk
          have hv : v = h := Option.some.inj (hlk.symm.trans hh)
          rw [hv] at hnonsym
          rw [hnonsym] at hsym
          exact Bool.false_ne_true hsym
        refine ⟨htn, ?_⟩
        have hbe : ((str "HEAD") == tn) = false :=
          beq_eq_false_iff_ne.mpr (fun he => htn he.symm)
        simp only [lookupRefs, List.lookup, hbe]
        exact hh

theorem commit_parent_and_head_advance_witness :
    ∃ O2 R2,
      commitOp demoShaOid [] (2 + 1) FsDir.nil []
          [(str "HEAD", str "ref:refs/heads/main"),
            (str "refs/heads/main", str "aaaa")] (str "m")
        = .ok (demoShaOid (TypeObject.commit.display ++ NULC ::
            commitContent (writeTreeD demoShaOid [] (str ".") FsDir.nil []).1
              ((some (RefValue.mk (some (str "refs/heads/main")) false
                (str "aaaa"))).map RefValue.value) (str "m")), O2, R2)
      ∧ (∃ m, getCommit O2 (demoShaOid (TypeObject.commit.display ++ NULC ::
            commitContent (writeTreeD demoShaOid [] (str ".") FsDir.nil []).1
              ((some (RefValue.mk (some (str "refs/heads/main")) false
                (str "aaaa"))).map RefValue.value) (str "m")))
          = .ok ⟨(writeTreeD demoShaOid [] (str ".") FsDir.nil []).1,
              (some (RefValue.mk (some (str "refs/heads/main")) false
                (str "aaaa"))).map RefValue.value, m⟩)
      ∧ ((some (RefValue.mk (some (str "refs/heads/main")) false
            (str "aaaa")) : Option RefValue) = none →
          R2 = (str "HEAD", demoShaOid (TypeObject.commit.display ++ NULC ::
            commitContent (writeTreeD demoShaOid [] (str ".") FsDir.nil []).1
              ((some (RefValue.mk (some (str "refs/heads/main")) false
                (str "aaaa"))).map RefValue.value) (str "m")))
            :: [(str "HEAD", str "ref:refs/heads/main"),
                (str "refs/heads/main", str "aaaa")])
      ∧ (∀ rv, (some (RefValue.mk (some (str "refs/heads/main")) false
            (str "aaaa")) : Option RefValue) = some rv →
          ∃ tn, rv.refOid = some tn
          ∧ R2 = (tn, demoShaOid (TypeObject.commit.display ++ NULC ::
              commitContent
                (writeTreeD demoShaOid [] (str ".") FsDir.nil []).1
                ((some (RefValue.mk (some (str "refs/heads/main")) false
                  (str "aaaa"))).map RefValue.value) (str "m")))
              :: [(str "HEAD", str "ref:refs/heads/main"),
                  (str "refs/heads/main", str "aaaa")]
          ∧ lookupRefs R2 tn = some (demoShaOid
              (TypeObject.commit.display ++ NULC ::
                commitContent
                  (writeTreeD demoShaOid [] (str ".") FsDir.nil []).1
                  ((some (RefValue.mk (some (str "refs/heads/main")) false
                    (str "aaaa"))).map RefValue.value) (str "m")))
          ∧ (∀ h, lookupRefs
                [(str "HEAD", str "ref:refs/heads/main"),
                  (str "refs/heads/main", str "aaaa")] (str "HEAD")
                = some h →
              ((!h.isEmpty) && isPrefixB (str "ref:") h) = true →
              ¬(tn = str "HEAD")
                ∧ lookupRefs R2 (str "HEAD") = some h)) :=
  commit_parent_and_head_advance demoShaOid [] 2 FsDir.nil []
    [(str "HEAD", str "ref:refs/heads/main"),
      (str "refs/heads/main", str "aaaa")] (str "m")
    (some (RefValue.mk (some (str "refs/heads/main")) false (str "aaaa")))
    (writeTreeD demoShaOid [] (str ".") FsDir.nil []).1
    (demoShaOid (TypeObject.commit.display ++ NULC ::
      commitContent (writeTreeD demoShaOid [] (str ".") FsDir.nil []).1
        ((some (RefValue.mk (some (str "refs/heads/main")) false
          (str "aaaa"))).map RefValue.value) (str "m")))
    (writeTreeD demoShaOid [] (str ".") FsDir.nil []).2
    rfl (by decide) (by decide)
    (fun rv hrv => by
      injection hrv with hre
      subst hre
      decide)
    (by decide) rfl (by decide)
    (fun v hv => by
      rw [(by decide : lookupStore
          (writeTreeD demoShaOid [] (str ".") FsDir.nil []).2
          (demoShaOid (TypeObject.commit.display ++ NULC ::
            commitContent
              (writeTreeD demoShaOid [] (str ".") FsDir.nil []).1
              ((some (RefValue.mk (some (str "refs/heads/main")) false
                (str "aaaa"))).map RefValue.value) (str "m")))
          = none)] at hv
      exact Option.noConfusion hv)

/-- C8 (amended): after a successful `switch(name)`, `HEAD` holds the
symbolic value `ref:refs/heads/{name}` exactly when `is_branch` reported
the branch — that is, when `refs/heads/{name}` dereferences to an existing
ref — and otherwise holds the resolved oid directly (detached). -/
theorem switch_head_symbolic_iff_branch (O : ObjStore) (R : RefStore)
    (f : Nat) (name : Str) (files : List (Str × Str)) (R2 : RefStore)
    (hrun : switchOp O R (f + 1) name = .ok (files, R2)) :
    (isBranchE R (f + 1) name = .ok true →
      R2 = (str "HEAD", str "ref:" ++ (str "refs/heads/" ++ name)) :: R)
    ∧ (∀ oid, isBranchE R (f + 1) name = .ok false →
        getOid R (f + 1) name = .ok oid →
        R2 = (str "HEAD", oid) :: R) := by
  unfold switchOp at hrun
  cases hg : getOid R (f + 1) name with
  | error e => rw [hg] at hrun; exact absurd hrun (by simp)
  | ok oid0 =>
    rw [hg] at hrun
    dsimp only at hrun
    cases hc : getCommit O oid0 with
    | error e => rw [hc] at hrun; exact absurd hrun (by simp)
    | ok cm =>
      rw [hc] at hrun
      dsimp only at hrun
      cases hrt : readTreeFiles O (f + 1) cm.tree with
      | error e => rw [hrt] at hrun; exact absurd hrun (by simp)
      | ok fs =>
        rw [hrt] at hrun
        dsimp only at hrun
        cases hb : isBranchE R (f + 1) name with
        | error e => rw [hb] at hrun; exact absurd hrun (by simp)
        | ok b =>
          rw [hb] at hrun
          dsimp only at hrun
          rw [updateRef_nonderef] at hrun
          cases b with
          | true =>
            simp only [eq_self_iff_true, if_true] at hrun
            unfold updateRefWrite at hrun
            rw [if_neg (fun he =>
              absurd (List.append_eq_nil.mp (List.isEmpty_iff.mp he)).1
                (by decide) :
              ¬((RefValue.mk (some oid0) true
                  (str "refs/heads/" ++ name)).value.isEmpty = true))]
              at hrun
            dsimp only at hrun
            simp only [eq_self_iff_true, if_true] at hrun
            constructor
            · intro _
              injection hrun with h1
              injection h1 with h2 h3
              exact h3.symm
            · intro oid hbf
              injection hbf with hbf'
              exact fun _ => Bool.noConfusion hbf'
          | false =>
            simp only [Bool.false_eq_true, if_false] at hrun
            unfold updateRefWrite at hrun
            by_cases hE : (RefValue.mk (some oid0) false oid0).value.isEmpty
              = true
            · rw [if_pos hE] at hrun
              exact absurd hrun (by simp)
            · rw [if_neg hE] at hrun
              dsimp only at hrun
              simp only [Bool.false_eq_true, if_false] at hrun
              constructor
              · intro hbt
                injection hbt with hbt'
                exact Bool.noConfusion hbt'
              · intro oid hbf hg2
                injection hg2 with hg2'
                subst hg2'
                injection hrun with h1
                injection h1 with h2 h3
                exact h3.symm

theorem switch_head_symbolic_iff_branch_witness :
    (isBranchE [(str "refs/heads/main", str "aaaa")] (2 + 1) (str "main")
        = .ok true →
      (str "HEAD", str "ref:refs/heads/main")
          :: [(str "refs/heads/main", str "aaaa")]
        = (str "HEAD", str "ref:" ++ (str "refs/heads/" ++ str "main"))
            :: [(str "refs/heads/main", str "aaaa")])
    ∧ (∀ oid, isBranchE [(str "refs/heads/main", str "aaaa")] (2 + 1)
          (str "main") = .ok false →
        getOid [(str "refs/heads/main", str "aaaa")] (2 + 1) (str "main")
          = .ok oid →
        (str "HEAD", str "ref:refs/heads/main")
            :: [(str "refs/heads/main", str "aaaa")]
          = (str "HEAD", oid) :: [(str "refs/heads/main", str "aaaa")]) :=
  switch_head_symbolic_iff_branch
    [(str "aaaa",
        taggedObj .commit
          (str "tree t0" ++ '\n' :: '\n' :: (str "m" ++ ['\n']))),
      (str "t0", taggedObj .tree [])]
    [(str "refs/heads/main", str "aaaa")] 2 (str "main") []
    ((str "HEAD", str "ref:refs/heads/main")
      :: [(str "refs/heads/main", str "aaaa")])
    (by decide)

/-- C8 counterexample: the branch ref file `refs/heads/n` exists (holding a
symbolic value whose target is missing), `switch n` succeeds by resolving
the name through `refs/tags/n`, yet `HEAD` ends up a direct oid, not a
symbolic ref to `refs/heads/n` — existence of the branch ref file is not
the condition the code tests. -/
theorem switch_head_dangling_branch_counterexample :
    lookupRefs
        [(str "refs/heads/n", str "ref:refs/heads/missing"),
          (str "refs/tags/n", str "c0")] (str "refs/heads/n")
      = some (str "ref:refs/heads/missing")
    ∧ switchOp
        [(str "c0",
            taggedObj .commit
              (str "tree t0" ++ '\n' :: '\n' :: (str "m" ++ ['\n']))),
          (str "t0", taggedObj .tree [])]
        [(str "refs/heads/n", str "ref:refs/heads/missing"),
          (str "refs/tags/n", str "c0")] 3 (str "n")
      = .ok ([],
          (str "HEAD", str "c0")
            :: [(str "refs/heads/n", str "ref:refs/heads/missing"),
                (str "refs/tags/n", str "c0")]) := by
  constructor
  · decide
  · decide

theorem cr_not_mem_display (t : TypeObject) : '\r' ∉ t.display := by
  cases t <;> decide

theorem perm_flatMap {α β : Type} (f : α → List β) {l1 l2 : List α}
    (h : l1.Perm l2) : (l1.flatMap f).Perm (l2.flatMap f) := by
  rw [List.flatMap_def, List.flatMap_def]
  exact (h.map f).flatten

theorem mapM_ok_getD (F : Entry → Except DsError (Str × Str)) :
    ∀ (l : List Entry), (∀ e ∈ l, ∃ y, F e = .ok y) →
    l.mapM F = .ok (l.map (fun e => ((F e).toOption).getD ([], [])))
  | [], _ => by
    rw [← List.mapM'_eq_mapM]
    rfl
  | a :: l, h => by
    obtain ⟨y, hy⟩ := h a (List.mem_cons_self _ _)
    have ih := mapM_ok_getD F l (fun e he => h e (List.mem_cons_of_mem _ he))
    rw [← List.mapM'_eq_mapM] at ih ⊢
    rw [List.mapM'_cons, hy, ih]
    simp [hy, Except.toOption]
    rfl

/-- A displayed entry line parses back to the entry when oid and path are
space-free (the positive half of the line roundtrip, shared). -/
theorem entryFrom_lineStr (e : Entry) (hoid : ' ' ∉ e.oid)
    (hpath : ' ' ∉ e.path) : entryFrom e.lineStr = .ok e := by
  unfold entryFrom Entry.lineStr
  dsimp only
  rw [splitCh_sep ' ' e.objType.display _ (space_not_mem_display e.objType),
    splitCh_sep ' ' e.oid _ hoid, splitCh_not_mem ' ' e.path hpath]
  simp only [List.length_cons, List.length_singleton, if_pos rfl,
    List.headD_cons, fromStr_display, List.getD]
  rfl

theorem pathChOk_append (t n : Str) (ht : pathChOk t) (hn : pathChOk n) :
    pathChOk (t ++ '/' :: n) := by
  unfold pathChOk at ht hn ⊢
  refine ⟨?_, ?_, ?_, ?_⟩ <;>
  · intro hmem
    rcases List.mem_append.1 hmem with h | h
    · exact absurd h (by tauto)
    · rcases List.mem_cons.1 h with h' | h'
      · exact absurd h' (by decide)
      · exact absurd h' (by tauto)

theorem lineStr_chars (e : Entry) (ho : OidOk e.oid) (hp : pathChOk e.path) :
    '\n' ∉ e.lineStr ∧ '\r' ∉ e.lineStr ∧ NULC ∉ e.lineStr := by
  unfold Entry.lineStr
  refine ⟨?_, ?_, ?_⟩
  · exact not_mem_app (newline_not_mem_display e.objType)
      (not_mem_cons_of (by decide)
        (not_mem_app ho.2.2.1 (not_mem_cons_of (by decide) hp.2.1)))
  · exact not_mem_app (cr_not_mem_display e.objType)
      (not_mem_cons_of (by decide)
        (not_mem_app ho.2.2.2.1 (not_mem_cons_of (by decide) hp.2.2.1)))
  · exact not_mem_app (NULC_not_mem_display e.objType)
      (not_mem_cons_of (by decide)
        (not_mem_app ho.2.2.2.2.1 (not_mem_cons_of (by decide) hp.2.2.2)))

theorem dirEntriesP_chars (sha1hex : Str → Str) (ign : List Str)
    (hsha : ∀ s, OidOk (sha1hex s)) :
    ∀ (d : FsDir) (target : Str), dirWfB ign target d = true →
    pathChOk target →
    ∀ e ∈ dirEntriesP sha1hex ign target d, OidOk e.oid ∧ pathChOk e.path
  | .nil, target, _, _ => by
    intro e he
    rw [dirEntriesP] at he
    exact absurd he (List.not_mem_nil e)
  | .cons n ent rest, target, hwf, htg => by
    simp only [dirWfB, Bool.and_eq_true, decide_eq_true_eq,
      Bool.not_eq_true'] at hwf
    obtain ⟨⟨⟨hname, hnig⟩, _⟩, hrestwf⟩ := hwf
    intro e he
    simp only [dirEntriesP, hnig, Bool.false_eq_true, if_false] at he
    rcases List.mem_cons.1 he with rfl | he'
    · refine ⟨?_, pathChOk_append target n htg hname⟩
      cases ent with
      | file c => exact hsha _
      | dir d' => exact hsha _
    · exact dirEntriesP_chars sha1hex ign hsha rest target hrestwf htg e he'

theorem treeContentP_NUL_free (sha1hex : Str → Str) (ign : List Str)
    (target : Str) (d : FsDir)
    (h : ∀ e ∈ dirEntriesP sha1hex ign target d,
        OidOk e.oid ∧ pathChOk e.path) :
    NULC ∉ treeContentP sha1hex ign target d := by
  unfold treeContentP
  intro hmem
  rw [List.mem_flatten] at hmem
  obtain ⟨l, hl, hin⟩ := hmem
  rw [List.mem_map] at hl
  obtain ⟨e, he, rfl⟩ := hl
  obtain ⟨ho, hp⟩ := h e (((sortEntries_perm _).mem_iff).mp he)
  have hln := (lineStr_chars e ho hp).2.2
  unfold Entry.display at hin
  rcases List.mem_append.1 hin with h1 | h1
  · exact hln h1
  · exact absurd h1 (by decide)

theorem getTreeGo_lines (S : ObjStore) (f : Nat) :
    ∀ (L : List Entry),
    (∀ e ∈ L, ' ' ∉ e.oid ∧ ' ' ∉ e.path) →
    (∀ e ∈ L, e.objType = .blob
      ∨ (e.objType = .tree ∧ ∃ sub, getObject S e.oid .tree = .ok sub
          ∧ ∃ es', getTree S f sub = .ok es')) →
    getTreeGo S (getTree S f) (L.map Entry.lineStr)
      = .ok (L.flatMap (expandEnt S f))
  | [], _, _ => by
    rw [List.map_nil, getTreeGo]
    rfl
  | e :: L, hsp, hcond => by
    have hef := entryFrom_lineStr e (hsp e (List.mem_cons_self _ _)).1
      (hsp e (List.mem_cons_self _ _)).2
    have ih := getTreeGo_lines S f L
      (fun x hx => hsp x (List.mem_cons_of_mem _ hx))
      (fun x hx => hcond x (List.mem_cons_of_mem _ hx))
    rw [List.map_cons, getTreeGo, hef]
    dsimp only
    rcases hcond e (List.mem_cons_self _ _) with hb | ⟨htr, sub, hobj, es', hgt⟩
    · rw [hb]
      dsimp only
      rw [ih]
      dsimp only
      rw [List.flatMap_cons]
      have hexp : expandEnt S f e = [e] := by
        unfold expandEnt
        rw [hb]
      rw [hexp]
      rfl
    · rw [htr]
      dsimp only
      rw [hobj]
      dsimp only
      rw [hgt]
      dsimp only
      rw [ih]
      dsimp only
      rw [List.flatMap_cons]
      have hexp : expandEnt S f e = es' := by
        unfold expandEnt
        rw [htr]
        dsimp only
        rw [hobj]
        dsimp only
        rw [hgt]
        rfl
      rw [hexp]

theorem expandSpec (S : ObjStore) (sha1hex : Str → Str) (ign : List Str)
    (hsha : ∀ s, OidOk (sha1hex s)) :
    ∀ (d : FsDir) (target : Str) (f : Nat),
    depthD d ≤ f →
    dirWfB ign target d = true →
    pathChOk target →
    (∀ x ∈ objsD sha1hex ign target d, lookupStore S x.1 = some x.2) →
    (∀ e ∈ dirEntriesP sha1hex ign target d,
        e.objType = .blob
        ∨ (e.objType = .tree ∧ ∃ sub, getObject S e.oid .tree = .ok sub
            ∧ ∃ es', getTree S f sub = .ok es'))
    ∧ ((dirEntriesP sha1hex ign target d).flatMap (expandEnt S f)).Perm
        (blobsD sha1hex ign target d)
  | .nil, target, f, _, _, _, _ => by
    constructor
    · intro e he
      rw [dirEntriesP] at he
      exact absurd he (List.not_mem_nil e)
    · rw [dirEntriesP, blobsD]
      simp
  | .cons n (.file c) rest, target, f, hdep, hwf, htg, HS => by
    simp only [dirWfB, Bool.and_eq_true, decide_eq_true_eq,
      Bool.not_eq_true'] at hwf
    obtain ⟨⟨⟨hname, hnig⟩, hentwf⟩, hrestwf⟩ := hwf
    have hdeprest : depthD rest ≤ f := by
      have hmx : depthD rest ≤ depthD (.cons n (.file c) rest) := by
        rw [depthD]
        exact le_max_right _ _
      omega
    have HSrest : ∀ x ∈ objsD sha1hex ign target rest,
        lookupStore S x.1 = some x.2 := by
      intro x hx
      apply HS
      simp only [objsD, hnig, Bool.false_eq_true, if_false]
      exact List.mem_append_right _ hx
    obtain ⟨Arest, Brest⟩ := expandSpec S sha1hex ign hsha rest target f
      hdeprest hrestwf htg HSrest
    have hde : dirEntriesP sha1hex ign target (.cons n (.file c) rest)
        = ⟨target ++ '/' :: n,
            entryOidP sha1hex ign (target ++ '/' :: n) (.file c),
            kindOfE (.file c)⟩
          :: dirEntriesP sha1hex ign target rest := by
      simp only [dirEntriesP, hnig, Bool.false_eq_true, if_false]
    have hbl : blobsD sha1hex ign target (.cons n (.file c) rest)
        = blobsE sha1hex ign (target ++ '/' :: n) (.file c)
          ++ blobsD sha1hex ign target rest := by
      simp only [blobsD, hnig, Bool.false_eq_true, if_false]
    constructor
    · intro e he
      rw [hde] at he
      rcases List.mem_cons.1 he with rfl | he'
      · left
        rfl
      · exact Arest e he'
    · rw [hde, hbl, List.flatMap_cons]
      rw [show expandEnt S f ⟨target ++ '/' :: n,
            entryOidP sha1hex ign (target ++ '/' :: n) (.file c),
            kindOfE (.file c)⟩
          = [⟨target ++ '/' :: n,
              entryOidP sha1hex ign (target ++ '/' :: n) (.file c),
              kindOfE (.file c)⟩] from rfl]
      rw [show blobsE sha1hex ign (target ++ '/' :: n) (.file c)
          = [⟨target ++ '/' :: n,
              entryOidP sha1hex ign (target ++ '/' :: n) (.file c),
              kindOfE (.file c)⟩] from rfl]
      exact Brest.cons _
  | .cons n (.dir d') rest, target, f, hdep, hwf, htg, HS => by
    simp only [dirWfB, Bool.and_eq_true, decide_eq_true_eq,
      Bool.not_eq_true'] at hwf
    obtain ⟨⟨⟨hname, hnig⟩, hentwf⟩, hrestwf⟩ := hwf
    have hdeprest : depthD rest ≤ f := by
      have hmx : depthD rest ≤ depthD (.cons n (.dir d') rest) := by
        rw [depthD]
        exact le_max_right _ _
      omega
    have HSrest : ∀ x ∈ objsD sha1hex ign target rest,
        lookupStore S x.1 = some x.2 := by
      intro x hx
      apply HS
      simp only [objsD, hnig, Bool.false_eq_true, if_false]
      exact List.mem_append_right _ hx
    have HSent : ∀ x ∈ objsE sha1hex ign (target ++ '/' :: n) (.dir d'),
        lookupStore S x.1 = some x.2 := by
      intro x hx
      apply HS
      simp only [objsD, hnig, Bool.false_eq_true, if_false]
      exact List.mem_append_left _ hx
    obtain ⟨Arest, Brest⟩ := expandSpec S sha1hex ign hsha rest target f
      hdeprest hrestwf htg HSrest
    have hde : dirEntriesP sha1hex ign target (.cons n (.dir d') rest)
        = ⟨target ++ '/' :: n,
            entryOidP sha1hex ign (target ++ '/' :: n) (.dir d'),
            kindOfE (.dir d')⟩
          :: dirEntriesP sha1hex ign target rest := by
      simp only [dirEntriesP, hnig, Bool.false_eq_true, if_false]
    have hbl : blobsD sha1hex ign target (.cons n (.dir d') rest)
        = blobsE sha1hex ign (target ++ '/' :: n) (.dir d')
          ++ blobsD sha1hex ign target rest := by
      simp only [blobsD, hnig, Bool.false_eq_true, if_false]
    have hdpos : depthD d' + 1 ≤ f := by
      have h1 : depthE (.dir d') ≤ depthD (.cons n (.dir d') rest) := by
        rw [depthD]
        exact le_max_left _ _
      rw [depthE] at h1
      omega
    cases f with
    | zero => omega
    | succ fp =>
      have hchildWf : dirWfB ign (target ++ '/' :: n) d' = true := by
        rw [entWfB] at hentwf
        exact hentwf
      have htp : pathChOk (target ++ '/' :: n) :=
        pathChOk_append target n htg hname
      have HSchild : ∀ x ∈ objsD sha1hex ign (target ++ '/' :: n) d',
          lookupStore S x.1 = some x.2 := by
        intro x hx
        apply HSent
        rw [objsE]
        exact List.mem_append_left _ hx
      have hlookT : lookupStore S
          (treeOidP sha1hex ign (target ++ '/' :: n) d')
          = some (taggedObj .tree
              (treeContentP sha1hex ign (target ++ '/' :: n) d')) :=
        HSent (treeOidP sha1hex ign (target ++ '/' :: n) d',
            taggedObj .tree
              (treeContentP sha1hex ign (target ++ '/' :: n) d'))
          (by
            rw [objsE]
            exact List.mem_append_right _ (List.mem_singleton.mpr rfl))
      obtain ⟨Achild, Bchild⟩ := expandSpec S sha1hex ign hsha d'
        (target ++ '/' :: n) fp (by omega) hchildWf htp HSchild
      have hchars := dirEntriesP_chars sha1hex ign hsha d'
        (target ++ '/' :: n) hchildWf htp
      have hNUL : NULC ∉ treeContentP sha1hex ign (target ++ '/' :: n) d' :=
        treeContentP_NUL_free sha1hex ign (target ++ '/' :: n) d' hchars
      have hobj : getObject S
          (treeOidP sha1hex ign (target ++ '/' :: n) d') .tree
          = .ok (treeContentP sha1hex ign (target ++ '/' :: n) d') :=
        getObject_of_lookup_clean S _ .tree .tree _ hlookT hNUL
      have hlines : rustLines
          (treeContentP sha1hex ign (target ++ '/' :: n) d')
          = (sortEntries (dirEntriesP sha1hex ign (target ++ '/' :: n)
              d')).map Entry.lineStr :=
        treeContent_lines sha1hex ign _ d' (fun e he => by
          obtain ⟨ho, hp2⟩ := hchars e (((sortEntries_perm _).mem_iff).mp he)
          have hl := lineStr_chars e ho hp2
          exact ⟨hl.1, hl.2.1⟩)
      have hGo := getTreeGo_lines S fp
        (sortEntries (dirEntriesP sha1hex ign (target ++ '/' :: n) d'))
        (fun e he => by
          obtain ⟨ho, hp2⟩ := hchars e (((sortEntries_perm _).mem_iff).mp he)
          exact ⟨ho.2.1, hp2.1⟩)
        (fun e he => Achild e (((sortEntries_perm _).mem_iff).mp he))
      have hgt : getTree S (fp + 1)
          (treeContentP sha1hex ign (target ++ '/' :: n) d')
          = .ok ((sortEntries (dirEntriesP sha1hex ign (target ++ '/' :: n)
              d')).flatMap (expandEnt S fp)) := by
        rw [getTree, hlines]
        exact hGo
      constructor
      · intro e he
        rw [hde] at he
        rcases List.mem_cons.1 he with rfl | he'
        · right
          exact ⟨rfl, _, hobj, _, hgt⟩
        · exact Arest e he'
      · rw [hde, hbl, List.flatMap_cons]
        have hexp : expandEnt S (fp + 1) ⟨target ++ '/' :: n,
            entryOidP sha1hex ign (target ++ '/' :: n) (.dir d'),
            kindOfE (.dir d')⟩
            = (sortEntries (dirEntriesP sha1hex ign (target ++ '/' :: n)
                d')).flatMap (expandEnt S fp) := by
          unfold expandEnt
          dsimp only
          rw [entryOidP_dir, hobj]
          dsimp only
          rw [hgt]
          rfl
        rw [hexp]
        rw [show blobsE sha1hex ign (target ++ '/' :: n) (.dir d')
            = blobsD sha1hex ign (target ++ '/' :: n) d' from by
          rw [blobsE]]
        exact ((perm_flatMap _ (sortEntries_perm _)).trans Bchild).append
          Brest
  termination_by d target f hdep hwf htg HS => sizeD d
  decreasing_by
    all_goals simp [sizeD, sizeE]
    all_goals omega

theorem blobsD_read (S : ObjStore) (sha1hex : Str → Str) (ign : List Str) :
    ∀ (d : FsDir) (target : Str),
    dirWfB ign target d = true →
    (∀ x ∈ objsD sha1hex ign target d, lookupStore S x.1 = some x.2) →
    (∀ e ∈ blobsD sha1hex ign target d,
        ∃ c, getObject S e.oid .blob = .ok c)
    ∧ (blobsD sha1hex ign target d).map
        (fun e => (e.path, ((getObject S e.oid .blob).toOption).getD []))
      = filesDir ign target d
  | .nil, target, _, _ => by
    constructor
    · intro e he
      rw [blobsD] at he
      exact absurd he (List.not_mem_nil e)
    · rw [blobsD, filesDir]
      rfl
  | .cons n (.file c) rest, target, hwf, HS => by
    simp only [dirWfB, Bool.and_eq_true, decide_eq_true_eq,
      Bool.not_eq_true'] at hwf
    obtain ⟨⟨⟨hname, hnig⟩, hentwf⟩, hrestwf⟩ := hwf
    have HSrest : ∀ x ∈ objsD sha1hex ign target rest,
        lookupStore S x.1 = some x.2 := by
      intro x hx
      apply HS
      simp only [objsD, hnig, Bool.false_eq_true, if_false]
      exact List.mem_append_right _ hx
    have HSent : ∀ x ∈ objsE sha1hex ign (target ++ '/' :: n) (.file c),
        lookupStore S x.1 = some x.2 := by
      intro x hx
      apply HS
      simp only [objsD, hnig, Bool.false_eq_true, if_false]
      exact List.mem_append_left _ hx
    obtain ⟨Arest, Brest⟩ := blobsD_read S sha1hex ign rest target
      hrestwf HSrest
    have hbl : blobsD sha1hex ign target (.cons n (.file c) rest)
        = blobsE sha1hex ign (target ++ '/' :: n) (.file c)
          ++ blobsD sha1hex ign target rest := by
      simp only [blobsD, hnig, Bool.false_eq_true, if_false]
    have hfl : filesDir ign target (.cons n (.file c) rest)
        = filesE ign (target ++ '/' :: n) (.file c)
          ++ filesDir ign target rest := by
      simp only [filesDir, hnig, Bool.false_eq_true, if_false]
    have hlook : lookupStore S (sha1hex (taggedObj .blob c))
        = some (taggedObj .blob c) :=
      HSent (sha1hex (taggedObj .blob c), taggedObj .blob c)
        (by
          rw [objsE]
          exact List.mem_singleton.mpr rfl)
    have hNUL : NULC ∉ c := by
      rw [entWfB] at hentwf
      exact of_decide_eq_true hentwf
    have hget : getObject S (sha1hex (taggedObj .blob c)) .blob = .ok c :=
      getObject_of_lookup_clean S _ .blob .blob c hlook hNUL
    constructor
    · intro e he
      rw [hbl] at he
      rcases List.mem_append.1 he with h1 | h1
      · rw [blobsE] at h1
        rcases List.mem_singleton.1 h1 with rfl
        exact ⟨c, hget⟩
      · exact Arest e h1
    · rw [hbl, hfl, List.map_append, Brest]
      rw [show blobsE sha1hex ign (target ++ '/' :: n) (.file c)
          = [⟨target ++ '/' :: n, sha1hex (taggedObj .blob c), .blob⟩]
          from by rw [blobsE]]
      rw [show filesE ign (target ++ '/' :: n) (.file c)
          = [(target ++ '/' :: n, c)] from by rw [filesE]]
      simp [hget, Except.toOption]
  | .cons n (.dir d') rest, target, hwf, HS => by
    simp only [dirWfB, Bool.and_eq_true, decide_eq_true_eq,
      Bool.not_eq_true'] at hwf
    obtain ⟨⟨⟨hname, hnig⟩, hentwf⟩, hrestwf⟩ := hwf
    have HSrest : ∀ x ∈ objsD sha1hex ign target rest,
        lookupStore S x.1 = some x.2 := by
      intro x hx
      apply HS
      simp only [objsD, hnig, Bool.false_eq_true, if_false]
      exact List.mem_append_right _ hx
    have HSent : ∀ x ∈ objsE sha1hex ign (target ++ '/' :: n) (.dir d'),
        lookupStore S x.1 = some x.2 := by
      intro x hx
      apply HS
      simp only [objsD, hnig, Bool.false_eq_true, if_false]
      exact List.mem_append_left _ hx
    obtain ⟨Arest, Brest⟩ := blobsD_read S sha1hex ign rest target
      hrestwf HSrest
    have hbl : blobsD sha1hex ign target (.cons n (.dir d') rest)
        = blobsE sha1hex ign (target ++ '/' :: n) (.dir d')
          ++ blobsD sha1hex ign target rest := by
      simp only [blobsD, hnig, Bool.false_eq_true, if_false]
    have hfl : filesDir ign target (.cons n (.dir d') rest)
        = filesE ign (target ++ '/' :: n) (.dir d')
          ++ filesDir ign target rest := by
      simp only [filesDir, hnig, Bool.false_eq_true, if_false]
    have hchildWf : dirWfB ign (target ++ '/' :: n) d' = true := by
      rw [entWfB] at hentwf
      exact hentwf
    have HSchild : ∀ x ∈ objsD sha1hex ign (target ++ '/' :: n) d',
        lookupStore S x.1 = some x.2 := by
      intro x hx
      apply HSent
      rw [objsE]
      exact List.mem_append_left _ hx
    obtain ⟨Achild, Bchild⟩ := blobsD_read S sha1hex ign d'
      (target ++ '/' :: n) hchildWf HSchild
    constructor
    · intro e he
      rw [hbl] at he
      rcases List.mem_append.1 he with h1 | h1
      · rw [blobsE] at h1
        exact Achild e h1
      · exact Arest e h1
    · rw [hbl, hfl, List.map_append, Brest]
      rw [show blobsE sha1hex ign (target ++ '/' :: n) (.dir d')
          = blobsD sha1hex ign (target ++ '/' :: n) d' from by
        rw [blobsE]]
      rw [show filesE ign (target ++ '/' :: n) (.dir d')
          = filesDir ign (target ++ '/' :: n) d' from by rw [filesE]]
      rw [Bchild]
  termination_by d target hwf HS => sizeD d
  decreasing_by
    all_goals simp [sizeD, sizeE]
    all_goals omega

theorem demoShaOid_ok (s : Str) : OidOk (demoShaOid s) := by
  unfold OidOk demoShaOid
  refine ⟨by simp, ?_, ?_, ?_, ?_, ?_⟩ <;>
  · intro hmem
    rcases List.mem_cons.1 hmem with h | h
    · exact absurd h (by decide)
    · rw [List.mem_filter] at h
      exact absurd h.2 (by decide)

/-- C1 (amended): for a directory tree whose names are free of the
separator characters of the serialized formats, with no ignored paths and
NUL-free file contents, and assuming the hash yields separator-free oids
without collisions among the written objects, `read_tree` after
`write_tree` reproduces exactly the tree's `(path, content)` pairs (as a
permutation — `get_tree` re-enumerates each directory in sorted order). -/
theorem write_tree_read_tree_roundtrip (sha1hex : Str → Str)
    (ign : List Str) (T : FsDir) (f : Nat)
    (hwf : dirWfB ign (str ".") T = true)
    (hdep : depthD T ≤ f)
    (hsha : ∀ s, OidOk (sha1hex s))
    (hc : Consistent (objsT sha1hex ign (str ".") T)) :
    ∃ out,
      readTreeFiles (writeTreeD sha1hex ign (str ".") T []).2 (f + 1)
          (writeTreeD sha1hex ign (str ".") T []).1 = .ok out
      ∧ out.Perm (filesDir ign (str ".") T) := by
  have HSall := writeTree_store_lookup sha1hex ign (str ".") T hc
  have HS : ∀ x ∈ objsD sha1hex ign (str ".") T,
      lookupStore (writeTreeD sha1hex ign (str ".") T []).2 x.1
        = some x.2 := by
    intro x hx
    apply HSall
    unfold objsT
    exact List.mem_append_left _ hx
  have hlookRoot := HSall
    (treeOidP sha1hex ign (str ".") T,
      taggedObj .tree (treeContentP sha1hex ign (str ".") T))
    (by
      unfold objsT
      exact List.mem_append_right _ (List.mem_singleton.mpr rfl))
  have hdot : pathChOk (str ".") := by decide
  have hchars := dirEntriesP_chars sha1hex ign hsha T (str ".") hwf hdot
  have hNUL := treeContentP_NUL_free sha1hex ign (str ".") T hchars
  have hobjRoot : getObject (writeTreeD sha1hex ign (str ".") T []).2
      (treeOidP sha1hex ign (str ".") T) .tree
      = .ok (treeContentP sha1hex ign (str ".") T) :=
    getObject_of_lookup_clean _ _ .tree .tree _ hlookRoot hNUL
  obtain ⟨Aroot, Broot⟩ := expandSpec
    (writeTreeD sha1hex ign (str ".") T []).2 sha1hex ign hsha T (str ".")
    f hdep hwf hdot HS
  have hlines := treeContent_lines sha1hex ign (str ".") T (fun e he => by
    obtain ⟨ho, hp2⟩ := hchars e (((sortEntries_perm _).mem_iff).mp he)
    have hl := lineStr_chars e ho hp2
    exact ⟨hl.1, hl.2.1⟩)
  have hGo := getTreeGo_lines (writeTreeD sha1hex ign (str ".") T []).2 f
    (sortEntries (dirEntriesP sha1hex ign (str ".") T))
    (fun e he => by
      obtain ⟨ho, hp2⟩ := hchars e (((sortEntries_perm _).mem_iff).mp he)
      exact ⟨ho.2.1, hp2.1⟩)
    (fun e he => Aroot e (((sortEntries_perm _).mem_iff).mp he))
  have hgt : getTree (writeTreeD sha1hex ign (str ".") T []).2 (f + 1)
      (treeContentP sha1hex ign (str ".") T)
      = .ok ((sortEntries (dirEntriesP sha1hex ign (str ".") T)).flatMap
          (expandEnt (writeTreeD sha1hex ign (str ".") T []).2 f)) := by
    rw [getTree, hlines]
    exact hGo
  have hXP : ((sortEntries (dirEntriesP sha1hex ign (str ".") T)).flatMap
      (expandEnt (writeTreeD sha1hex ign (str ".") T []).2 f)).Perm
      (blobsD sha1hex ign (str ".") T) := by
    have h1 := perm_flatMap
      (expandEnt (writeTreeD sha1hex ign (str ".") T []).2 f)
      (sortEntries_perm (dirEntriesP sha1hex ign (str ".") T))
    exact h1.trans Broot
  obtain ⟨Ablob, Bblob⟩ := blobsD_read
    (writeTreeD sha1hex ign (str ".") T []).2 sha1hex ign T (str ".") hwf HS
  have hsucc : ∀ e ∈ (sortEntries (dirEntriesP sha1hex ign
      (str ".") T)).flatMap
      (expandEnt (writeTreeD sha1hex ign (str ".") T []).2 f),
      ∃ y, readBlobF (writeTreeD sha1hex ign (str ".") T []).2 e
        = .ok y := by
    intro e he
    obtain ⟨c, hcg⟩ := Ablob e ((hXP.mem_iff).mp he)
    refine ⟨(e.path, c), ?_⟩
    unfold readBlobF
    rw [hcg]
  have hmap := mapM_ok_getD
    (readBlobF (writeTreeD sha1hex ign (str ".") T []).2) _ hsucc
  refine ⟨((sortEntries (dirEntriesP sha1hex ign (str ".") T)).flatMap
      (expandEnt (writeTreeD sha1hex ign (str ".") T []).2 f)).map
      (fun e => ((readBlobF (writeTreeD sha1hex ign (str ".") T []).2
        e).toOption).getD ([], [])), ?_, ?_⟩
  · have htoid : (writeTreeD sha1hex ign (str ".") T []).1
        = treeOidP sha1hex ign (str ".") T := by
      rw [writeTree_agree]
    unfold readTreeFiles
    rw [htoid, hobjRoot]
    dsimp only
    rw [hgt]
    dsimp only
    exact hmap
  · have hpt : ∀ e ∈ (sortEntries (dirEntriesP sha1hex ign
        (str ".") T)).flatMap
        (expandEnt (writeTreeD sha1hex ign (str ".") T []).2 f),
        ((readBlobF (writeTreeD sha1hex ign (str ".") T []).2 e).toOption).getD
            ([], [])
          = (e.path, ((getObject (writeTreeD sha1hex ign (str ".") T []).2
              e.oid .blob).toOption).getD []) := by
      intro e he
      obtain ⟨c, hcg⟩ := Ablob e ((hXP.mem_iff).mp he)
      unfold readBlobF
      rw [hcg]
      rfl
    rw [List.map_congr_left hpt]
    have h2 := hXP.map (fun e => (e.path,
      ((getObject (writeTreeD sha1hex ign (str ".") T []).2 e.oid
        .blob).toOption).getD []))
    rw [Bblob] at h2
    exact h2

theorem write_tree_read_tree_roundtrip_witness :
    ∃ out,
      readTreeFiles (writeTreeD demoShaOid [] (str ".")
          (.cons (str "a") (.file (str "x"))
            (.cons (str "d")
              (.dir (.cons (str "b") (.file (str "y")) .nil)) .nil)) []).2
          (1 + 1)
        (writeTreeD demoShaOid [] (str ".")
          (.cons (str "a") (.file (str "x"))
            (.cons (str "d")
              (.dir (.cons (str "b") (.file (str "y")) .nil)) .nil)) []).1
        = .ok out
      ∧ out.Perm (filesDir [] (str ".")
          (.cons (str "a") (.file (str "x"))
            (.cons (str "d")
              (.dir (.cons (str "b") (.file (str "y")) .nil)) .nil))) :=
  write_tree_read_tree_roundtrip demoShaOid []
    (.cons (str "a") (.file (str "x"))
      (.cons (str "d")
        (.dir (.cons (str "b") (.file (str "y")) .nil)) .nil)) 1
    (by decide) (by decide) demoShaOid_ok (by decide)

/-- C1 counterexample: a tree containing the file name `a b` — no ignored
paths, plain content — snapshots fine, but restoring panics: the space in
the path makes the serialized line split into four fields. -/
theorem write_tree_read_tree_space_counterexample :
    isIgnored (str "./a b") [] = false
    ∧ readTreeFiles (writeTreeD demoShaOid [] (str ".")
          (.cons (str "a b") (.file (str "x")) .nil) []).2 2
        (writeTreeD demoShaOid [] (str ".")
          (.cons (str "a b") (.file (str "x")) .nil) []).1
      = .error (.panicked (str "Entry must be length == 3")) := by
  constructor
  · decide
  · decide

end Dsgit

